import Mathlib

/-!
Verification development for the server-driven-MUI schema-path resolution and
update-payload pipeline.

The TypeScript source is shallowly embedded:
  * JavaScript JSON values become the inductive `JsVal` (object key order is
    kept, since JS objects preserve insertion order and `for..in` follows it;
    property lists model JS objects, whose keys are distinct).
  * JavaScript numbers are modelled as exact rationals (`Rat`) with explicit
    markers for `NaN` and the infinities (`JsNum`); float64 rounding and
    overflow-to-Infinity are idealised away.
  * JSON Schema nodes become the inductive `Schema`, keeping exactly the
    fields the source reads (`type`, `properties`, `items`, `enum`,
    `minLength`), each optional to model an absent JS field.
  * A JS expression that would throw a `TypeError` (property access on
    `undefined`, strict-mode assignment to a primitive) is modelled as an
    explicit failure outcome (`crash` constructors / `Except.error`).
-/

namespace SDMUI

/-- JavaScript number: an exact rational, or one of the non-finite values.
`Number.isFinite` is true exactly on the `fin` constructor. -/
inductive JsNum where
  | fin (q : Rat)
  | nan
  | inf
  | negInf
deriving DecidableEq

/-- `Number.isFinite(n)` -/
def JsNum.isFinite : JsNum → Bool
  | .fin _ => true
  | _ => false

/-- global `isNaN(n)` applied to a value that is already a number -/
def JsNum.isNaNb : JsNum → Bool
  | .nan => true
  | _ => false

/-- A JSON-ish JavaScript value.  `vUndefined` models the JS `undefined`
value (distinct from JSON `null`). -/
inductive JsVal where
  | vStr (s : String)
  | vNum (q : Rat)
  | vBool (b : Bool)
  | vNull
  | vUndefined
  | vObj (fields : List (String × JsVal))
  | vArr (elems : List JsVal)

/-- Characters treated as whitespace by JS `String.prototype.trim` and by
`Number(string)` (model: the common ASCII + a few unicode space chars; the
same set is used in both places, which is all that matters for coercion). -/
def jsIsWhite (c : Char) : Bool :=
  c = ' ' ∨ c = '\t' ∨ c = '\n' ∨ c = '\r' ∨ c = '\x0b' ∨ c = '\x0c' ∨
  c = ' ' ∨ c = '﻿'

/-- Trim JS whitespace from both ends of a char list. -/
def jsTrimList (l : List Char) : List Char :=
  ((l.dropWhile jsIsWhite).reverse.dropWhile jsIsWhite).reverse

/-- `raw.trim()` on strings. -/
def jsTrim (s : String) : String :=
  String.mk (jsTrimList s.data)

/-- Digits of a decimal literal to a natural number. -/
def digitsToNat (l : List Char) : Nat :=
  l.foldl (fun a c => a * 10 + (c.toNat - 48)) 0

/-- Value of a digit in the given base, if valid. -/
def radixDigit (base : Nat) (c : Char) : Option Nat :=
  let v : Nat :=
    if '0' ≤ c ∧ c ≤ '9' then c.toNat - 48
    else if 'a' ≤ c ∧ c ≤ 'f' then c.toNat - 87
    else if 'A' ≤ c ∧ c ≤ 'F' then c.toNat - 55
    else 1000
  if v < base then some v else none

/-- Parse a non-empty run of base-`base` digits spanning the whole list. -/
def parseRadix (base : Nat) : List Char → Option Nat
  | [] => none
  | [c] => radixDigit base c
  | c :: cs => do
    let v ← radixDigit base c
    let r ← parseRadix base cs
    pure (v * Nat.pow base cs.length + r)

/-- The rational `m * 10 ^ k` for integer `k`, built with `mkRat` so that
it evaluates by kernel reduction. -/
def scaleByPow10 (m : Nat) (k : Int) : Rat :=
  match k with
  | .ofNat n => mkRat (m * 10 ^ n) 1
  | .negSucc n => mkRat m (10 ^ (n + 1))

/-- Parse the decimal body `digits [. digits] [e|E [+|-] digits]` of a JS
number literal (sign already stripped); the whole list must be consumed and
the mantissa must contain at least one digit. -/
def parseDec (l : List Char) : Option Rat :=
  let intPart := l.takeWhile Char.isDigit
  let rest1 := l.dropWhile Char.isDigit
  let (fracPart, rest2) :=
    match rest1 with
    | '.' :: r => (r.takeWhile Char.isDigit, r.dropWhile Char.isDigit)
    | _ => ([], rest1)
  if intPart = [] ∧ fracPart = [] then none
  else
    let expo : Option Int :=
      match rest2 with
      | [] => some 0
      | e :: r =>
        if e = 'e' ∨ e = 'E' then
          let (sgn, ds) :=
            match r with
            | '+' :: r' => ((1 : Int), r')
            | '-' :: r' => ((-1 : Int), r')
            | _ => ((1 : Int), r)
          if ds ≠ [] ∧ ds.all Char.isDigit then some (sgn * digitsToNat ds) else none
        else none
    match expo with
    | none => none
    | some ex =>
      -- digits i.f with exponent e denote (i·10^|f| + f) · 10^(e-|f|)
      some (scaleByPow10 (digitsToNat (intPart ++ fracPart)) (ex - fracPart.length))

/-- Model of JS `Number(string)`: trims whitespace, empty string is `0`,
radix-prefixed literals (`0x`/`0o`/`0b`, unsigned only), optional sign,
`Infinity`, or a decimal literal; anything else is `NaN`. -/
def jsNumber (s : String) : JsNum :=
  let l := jsTrimList s.data
  match l with
  | [] => .fin 0
  | _ =>
    if l.take 2 = ['0', 'x'] ∨ l.take 2 = ['0', 'X'] then
      match parseRadix 16 (l.drop 2) with
      | some n => .fin (mkRat n 1)
      | none => .nan
    else if l.take 2 = ['0', 'o'] ∨ l.take 2 = ['0', 'O'] then
      match parseRadix 8 (l.drop 2) with
      | some n => .fin (mkRat n 1)
      | none => .nan
    else if l.take 2 = ['0', 'b'] ∨ l.take 2 = ['0', 'B'] then
      match parseRadix 2 (l.drop 2) with
      | some n => .fin (mkRat n 1)
      | none => .nan
    else
      let (neg, body) :=
        match l with
        | '+' :: r => (false, r)
        | '-' :: r => (true, r)
        | _ => (false, l)
      if body = "Infinity".data then
        (if neg then .negInf else .inf)
      else
        match parseDec body with
        | some q => .fin (if neg then -q else q)
        | none => .nan

/-! ### String utilities mirroring the JS operations on paths -/

/-- JS `s.split('.')` on a char list: always returns at least one (possibly
empty) chunk, one more chunk per dot. -/
def splitDots : List Char → List (List Char)
  | [] => [[]]
  | c :: cs =>
    if c = '.' then [] :: splitDots cs
    else
      match splitDots cs with
      | s :: ss => (c :: s) :: ss
      | [] => [[c]]

/-- At a position whose char was `'['`: try to consume `digits* ']'` and
return the remainder.  This is exactly when the regex `\[\d*\]` matches at
that position (greedy `\d*` never needs backtracking here, because giving
back a digit leaves a digit, not `']'`, under the cursor). -/
def idxClose (cs : List Char) : Option (List Char) :=
  match cs.dropWhile Char.isDigit with
  | ']' :: r => some r
  | _ => none

/-- `s.replace(/\[\d*\]/, repl)` (no `g` flag): replace the leftmost match
of `\[\d*\]` by `repl`, leave the rest untouched. -/
def replFirstIdx (repl : List Char) : List Char → List Char
  | [] => []
  | c :: cs =>
    if c = '[' then
      match idxClose cs with
      | some r => repl ++ r
      | none => c :: replFirstIdx repl cs
    else c :: replFirstIdx repl cs

theorem dropWhile_length_le (p : Char → Bool) (l : List Char) :
    (l.dropWhile p).length ≤ l.length := by
  induction l with
  | nil => simp
  | cons a l ih =>
    by_cases h : p a <;> simp [List.dropWhile, h] <;> omega

theorem idxClose_length_le {cs r : List Char} (h : idxClose cs = some r) :
    r.length ≤ cs.length := by
  have h2 : (cs.dropWhile Char.isDigit).length ≤ cs.length :=
    dropWhile_length_le Char.isDigit cs
  unfold idxClose at h
  revert h
  match hd : cs.dropWhile Char.isDigit with
  | [] => intro h; cases h
  | ']' :: r' =>
    intro h
    cases h
    rw [hd] at h2
    simp only [List.length_cons] at h2
    omega
  | c' :: r' =>
    intro h
    by_cases hc : c' = ']'
    · subst hc; cases h; rw [hd] at h2; simp only [List.length_cons] at h2; omega
    · simp [hc] at h

/-- Fuel-driven worker for `replAllIdx` (the fuel only serves structural
recursion; `replAllIdx` supplies enough of it that the first case never
fires). -/
def replAllAux : Nat → List Char → List Char
  | 0, l => l
  | _, [] => []
  | fuel + 1, c :: cs =>
    if c = '[' then
      match idxClose cs with
      | some r => '[' :: ']' :: replAllAux fuel r
      | none => c :: replAllAux fuel cs
    else c :: replAllAux fuel cs

/-- Replace every match of `\[\d*\]` by `[]` (what a `g`-flagged replace
would do; scanning resumes after each replacement).  This is the
"collapse all concrete indices" function the spec describes; it is NOT the
source's `valuePathToFieldPath`, which lacks the `g` flag. -/
def replAllIdx (l : List Char) : List Char :=
  replAllAux l.length l

/-- Does the char list contain a concrete array index, i.e. a match of
`\[\d+\]` (at least one digit)?  Schema paths have none. -/
def hasConcreteIdx : List Char → Bool
  | [] => false
  | c :: cs =>
    (c = '[' && (cs.takeWhile Char.isDigit ≠ [] &&
      (match cs.dropWhile Char.isDigit with
       | ']' :: _ => true
       | _ => false))) ||
    hasConcreteIdx cs

/-- `fieldName.replace(/\[\d*\]/, "[]")` — the source's
`valuePathToFieldPath` helper (part_004 line 102): collapses the FIRST
indexed array segment only (the regex has no `g` flag). -/
def valuePathToFieldPath (fieldName : String) : String :=
  String.mk (replFirstIdx ['[', ']'] fieldName.data)

/-- Spec-side companion of `valuePathToFieldPath`: the schema path of a
value path, with EVERY concrete index collapsed to `[]` (what the spec's
`toSchemaPath` promises). -/
def toSchemaPathAll (fieldName : String) : String :=
  String.mk (replAllIdx fieldName.data)

/-- Strip a leading `$.` or `$` from a path, as `getFieldType` and
`setByPath` do. -/
def stripDollar (l : List Char) : List Char :=
  match l with
  | '$' :: '.' :: r => r
  | '$' :: r => r
  | _ => l

/-- `path.split(".").reverse()[0]` — the last dot-separated chunk. -/
def lastDotSegment (path : String) : String :=
  match (splitDots path.data).reverse with
  | s :: _ => String.mk s
  | [] => ""

/-! ### JSON Schema nodes -/

/-- A JSON Schema node, keeping exactly the fields the source reads.  Every
field is optional, modelling its absence on the JS object (`none` =
`undefined`).  `properties? = some []` is a present-but-empty `properties`
object (truthy in JS), distinct from `properties? = none` (falsy). -/
inductive Schema where
  | mk (type? : Option String)
       (properties? : Option (List (String × Schema)))
       (items? : Option Schema)
       (enum? : Option (List JsVal))
       (minLength? : Option Nat)

def Schema.type? : Schema → Option String
  | .mk t _ _ _ _ => t

def Schema.properties? : Schema → Option (List (String × Schema))
  | .mk _ p _ _ _ => p

def Schema.items? : Schema → Option Schema
  | .mk _ _ i _ _ => i

def Schema.enum? : Schema → Option (List JsVal)
  | .mk _ _ _ e _ => e

def Schema.minLength? : Schema → Option Nat
  | .mk _ _ _ _ m => m

/-- `properties[part]`: property lookup on the (insertion-ordered) property
list of a JS object; `none` = the JS `undefined`. -/
def propLookup (props : List (String × Schema)) (key : String) : Option Schema :=
  match props.find? (fun kv => kv.1 = key) with
  | some kv => some kv.2
  | none => none

/-- Outcome of `getFieldType`: the returned `{type, enum}` record, the
explicit `null` return, or a thrown `TypeError` (property access on
`undefined`). -/
inductive GftOut where
  | found (t : String) (enumList : Option (List JsVal))
  | notFound
  | crash

/-- The `for (const part of parts)` loop of `getFieldType` together with its
final `return` (part_004 lines 47-61).  `none` for `current` models the JS
`undefined`; touching `.type` on it is a crash. -/
def gftLoop : Option Schema → List String → GftOut
  | none, [] => .crash
  | some s, [] => .found (s.type?.getD "string") s.enum?
  | none, _ :: _ => .crash
  | some s, part :: rest =>
    if s.type? = some "object" then
      match s.properties? with
      | none => .crash
      | some props => gftLoop (propLookup props part) rest
    else if s.type? = some "array" then
      match s.items? with
      | none => .crash
      | some it =>
        if it.type? = some "object" then
          match it.properties? with
          | none => .crash
          | some props => gftLoop (propLookup props part) rest
        else .notFound
    else .notFound

/-- The parts `getFieldType` iterates over: strip a leading `$.`/`$`, drop
the FIRST `\[\d*\]` occurrence (`replace` without `g`), split on `.`. -/
def gftParts (path : String) : List String :=
  (splitDots (replFirstIdx [] (stripDollar path.data))).map String.mk

/-- `getFieldType(schema, path)` (part_004 lines 36-62).  The initial
`if (!current) return null` never fires in the model: the schema argument is
always an object, hence truthy. -/
def getFieldType (schema : Schema) (path : String) : GftOut :=
  gftLoop (some schema) (gftParts path)

/-! ### Allow-list derivation (`extractFieldPaths`, part_000 lines 41-78) -/

theorem Schema.sizeOf_properties {s : Schema} {p : List (String × Schema)}
    (h : s.properties? = some p) : sizeOf p < sizeOf s := by
  cases s with
  | mk t pr i e m =>
    simp only [Schema.properties?] at h
    subst h
    simp only [Schema.mk.sizeOf_spec, Option.some.sizeOf_spec]
    omega

theorem Schema.sizeOf_items {s i : Schema} (h : s.items? = some i) :
    sizeOf i < sizeOf s := by
  cases s with
  | mk t pr it e m =>
    simp only [Schema.items?] at h
    subst h
    simp only [Schema.mk.sizeOf_spec, Option.some.sizeOf_spec]
    omega

mutual

/-- `extractFieldPaths(schema, prefix)`.  Returns `none` for the one crash
point of the source: an array-typed node without `items` makes
`itemSchema.type` throw.  (The `prefix` parameter is named `pre` here.) -/
def extractFieldPaths (schema : Schema) (pre : String) : Option (List String) :=
  if schema.type? = some "object" then
    match hp : schema.properties? with
    | none => some []
    | some props => extractFromProps props pre
  else if schema.type? = some "array" then
    match hi : schema.items? with
    | none => some []   -- `schema.items` falsy: the && guard fails, no paths
    | some propSchema =>
      let fieldPath := pre ++ "[]"
      if propSchema.type? = some "object" ∨ propSchema.type? = some "array" then
        extractFieldPaths propSchema fieldPath
      else
        some [fieldPath]
  else
    some []
termination_by sizeOf schema
decreasing_by
  · exact Schema.sizeOf_properties hp
  · exact Schema.sizeOf_items hi

/-- The `for (const key in schema.properties)` loop of the object branch. -/
def extractFromProps (props : List (String × Schema)) (pre : String) :
    Option (List String) :=
  match props with
  | [] => some []
  | (key, propSchema) :: rest => do
    let here ←
      (if propSchema.type? = some "object" then
        extractFieldPaths propSchema (pre ++ "." ++ key)
      else if propSchema.type? = some "array" then
        match hii : propSchema.items? with
        | none => none   -- `itemSchema.type` throws: itemSchema is undefined
        | some itemSchema =>
          let fieldPath := pre ++ "." ++ key
          let arrayItemPath := fieldPath ++ "[]"
          if itemSchema.type? = some "object" ∨ itemSchema.type? = some "array" then
            (extractFieldPaths itemSchema arrayItemPath).map (fieldPath :: ·)
          else
            some [fieldPath, arrayItemPath]
      else
        some [pre ++ "." ++ key])
    let there ← extractFromProps rest pre
    pure (here ++ there)
termination_by sizeOf props
decreasing_by
  · simp only [Prod.mk.sizeOf_spec, List.cons.sizeOf_spec]
    omega
  · have := Schema.sizeOf_items hii
    simp only [Prod.mk.sizeOf_spec, List.cons.sizeOf_spec]
    omega
  · simp only [Prod.mk.sizeOf_spec, List.cons.sizeOf_spec]
    omega

end

/-! ### Value coercion (`coerceValue`, part_004 lines 117-137) -/

/-- `fieldType.enum.includes(numValue)`: strict-equality membership of a JS
number in the enum array.  A JSON-derived enum holds no `NaN`/`Infinity`,
and `NaN` is never equal to anything, so only finite values can match. -/
def enumIncludesNum (lst : List JsVal) (n : JsNum) : Bool :=
  match n with
  | .fin q => lst.any (fun v => match v with | .vNum q' => q' = q | _ => false)
  | _ => false

/-- `coerceValue(fieldType, raw)`. -/
def coerceValue (t : String) (enumList : Option (List JsVal)) (raw : String) : JsVal :=
  if t = "number" ∨ t = "integer" then
    if jsTrim raw = "" then .vNull
    else
      match jsNumber raw with
      | .fin q => .vNum q      -- Number.isFinite(n)
      | _ => .vNull
  else if t = "boolean" then
    .vBool (raw = "true")
  else
    match enumList with
    | some lst =>
      -- const numValue = Number(raw);
      -- if (!isNaN(numValue) && enum.includes(numValue)) return numValue;
      -- return raw;  (±Infinity passes !isNaN but can never be in the enum)
      match jsNumber raw with
      | .fin q => if enumIncludesNum lst (.fin q) then .vNum q else .vStr raw
      | _ => .vStr raw
    | none => .vStr raw

/-- `isFieldAllowed` together with the `allowFieldSet` construction
(part_004 lines 104-114): a non-empty `allowFields` array becomes a set,
otherwise every field is allowed. -/
def isFieldAllowed (allowFields : List String) (fieldName : String) : Bool :=
  if allowFields.length > 0 then
    allowFields.contains (valuePathToFieldPath fieldName)
  else true

/-! ### JSONPath navigation model

`getParentOfTargetPath` (part_004 lines 14-25) calls `JSONPath` with
`resultType: 'parent'`: it returns the parent container of each node the
path matches, and the source falls back to the root `json` when there is no
match.  The model covers the path shapes the renderer produces: a leading
`$`, dot-separated member names, and bracketed numeric indices.  JSONPath
operators outside this fragment (wildcards, recursive descent `..`,
filters, quoted brackets) are modelled as a failed parse, i.e. "no match",
which takes the same root-fallback branch as an unmatched plain path. -/

inductive Seg where
  | key (k : String)
  | idx (n : Nat)
deriving DecidableEq

/-- A non-empty all-digit member name, as a numeric index. -/
def natOfDigits? (s : String) : Option Nat :=
  if s.data ≠ [] ∧ s.data.all Char.isDigit then some (digitsToNat s.data) else none

/-- Fuel-driven worker for `parseBrackets`; the fuel only serves structural
recursion and is always sufficient when set to the list length. -/
def parseBracketsAux : Nat → List Char → Option (List Seg)
  | _, [] => some []
  | 0, _ :: _ => none
  | fuel + 1, c :: r =>
    if c = '[' then
      if r.takeWhile Char.isDigit = [] then none
      else
        match idxClose r with
        | some r' =>
          (parseBracketsAux fuel r').map
            (fun segs => Seg.idx (digitsToNat (r.takeWhile Char.isDigit)) :: segs)
        | none => none
    else none

/-- Parse the `[n][m]…` bracket suffix of one dot-chunk. -/
def parseBrackets (l : List Char) : Option (List Seg) :=
  parseBracketsAux l.length l

/-- Parse one dot-chunk `name[n]…` into its segments. -/
def parseSegChunk (chunk : List Char) : Option (List Seg) :=
  let name := chunk.takeWhile (· ≠ '[')
  let rest := chunk.dropWhile (· ≠ '[')
  match parseBrackets rest with
  | none => none
  | some brs =>
    if name = [] ∧ brs = [] then none
    else some ((if name = [] then [] else [Seg.key (String.mk name)]) ++ brs)

/-- Parse every dot-chunk and concatenate the segments; any bad chunk
fails the whole parse. -/
def parseChunks : List (List Char) → Option (List Seg)
  | [] => some []
  | c :: cs => do
    let s ← parseSegChunk c
    let rest ← parseChunks cs
    pure (s ++ rest)

/-- Parse a child-segment JSONPath into a segment list (see the section
comment for the modelled fragment). -/
def parseJPath (path : String) : Option (List Seg) :=
  let l :=
    match path.data with
    | '$' :: r => r
    | l => l
  match l with
  | [] => some []
  | '.' :: r => parseChunks (splitDots r)
  | _ => parseChunks (splitDots l)

def objLookup (fs : List (String × JsVal)) (k : String) : Option JsVal :=
  match fs.find? (fun kv => kv.1 = k) with
  | some kv => some kv.2
  | none => none

/-- Navigate to the node a segment list addresses, if it exists. -/
def getNodeSegs : JsVal → List Seg → Option JsVal
  | v, [] => some v
  | .vObj fs, .key k :: rest =>
    match objLookup fs k with
    | some c => getNodeSegs c rest
    | none => none
  | .vArr es, .key k :: rest =>
    match natOfDigits? k with
    | some n =>
      match es.get? n with
      | some c => getNodeSegs c rest
      | none => none
    | none => none
  | .vObj fs, .idx n :: rest =>
    match objLookup fs (toString n) with
    | some c => getNodeSegs c rest
    | none => none
  | .vArr es, .idx n :: rest =>
    match es.get? n with
    | some c => getNodeSegs c rest
    | none => none
  | _, _ :: _ => none

def listModifyAt : List JsVal → Nat → (JsVal → JsVal) → List JsVal
  | [], _, _ => []
  | x :: xs, 0, f => f x :: xs
  | x :: xs, n + 1, f => x :: listModifyAt xs n f

/-- Update the value stored under `k`, leaving the object unchanged when the
key is absent (only used at resolvable locations). -/
def objUpdate (fs : List (String × JsVal)) (k : String) (f : JsVal → JsVal) :
    List (String × JsVal) :=
  fs.map (fun kv => if kv.1 = k then (kv.1, f kv.2) else kv)

/-- Apply `f` to the node a (resolvable) segment list addresses. -/
def modifyAtSegs : JsVal → List Seg → (JsVal → JsVal) → JsVal
  | v, [], f => f v
  | .vObj fs, .key k :: rest, f => .vObj (objUpdate fs k (fun c => modifyAtSegs c rest f))
  | .vArr es, .key k :: rest, f =>
    match natOfDigits? k with
    | some n => .vArr (listModifyAt es n (fun c => modifyAtSegs c rest f))
    | none => .vArr es
  | .vObj fs, .idx n :: rest, f => .vObj (objUpdate fs (toString n) (fun c => modifyAtSegs c rest f))
  | .vArr es, .idx n :: rest, f => .vArr (listModifyAt es n (fun c => modifyAtSegs c rest f))
  | v, _ :: _, _ => v

/-- `fs` with `k` set to `v`: overwrite in place when present (JS keeps the
original insertion position), append otherwise. -/
def objSetKey (fs : List (String × JsVal)) (k : String) (v : JsVal) :
    List (String × JsVal) :=
  if (fs.find? (fun kv => kv.1 = k)).isSome then
    fs.map (fun kv => if kv.1 = k then (kv.1, v) else kv)
  else fs ++ [(k, v)]

/-- `target[k] = v` on an object or array, as the effect visible to the
subsequent `JSON.stringify`: object keys are set/overwritten; a numeric
array index writes the element (extending with holes, which stringify as
`null`); a non-numeric key on an array is an expando property, invisible to
serialisation.  Primitives are returned unchanged (never used on them). -/
def setOwnProp (target : JsVal) (k : String) (v : JsVal) : JsVal :=
  match target with
  | .vObj fs => .vObj (objSetKey fs k v)
  | .vArr es =>
    match natOfDigits? k with
    | some n =>
      if n < es.length then .vArr (listModifyAt es n (fun _ => v))
      else .vArr (es ++ List.replicate (n - es.length) .vNull ++ [v])
    | none => .vArr es
  | other => other

/-- Result of `getParentOfTargetPath`: the parent of the matched node, the
root-`json` fallback when nothing matches, or the `null` parent of a root
match. -/
inductive ParentRes where
  | nodeAt (parentSegs : List Seg)
  | rootFallback
  | nullParent

/-- `getParentOfTargetPath(json, path)` (part_004 lines 14-25). -/
def getParentOfTargetPath (json : JsVal) (path : String) : ParentRes :=
  match parseJPath path with
  | none => .rootFallback
  | some [] => .nullParent
  | some segs =>
    if (getNodeSegs json segs).isSome then .nodeAt segs.dropLast
    else .rootFallback

/-- `setByPath(json, path, value)` (part_004 lines 28-33): look up the
parent via JSONPath, then assign `targetObj[fieldName] = value` where
`fieldName` is the last dot-chunk of the raw path.  Assigning to `null` or
to a primitive root throws (`Except.error`). -/
def setByPath (json : JsVal) (path : String) (value : JsVal) : Except Unit JsVal :=
  let fieldName := lastDotSegment path
  match getParentOfTargetPath json path with
  | .nullParent => .error ()
  | .rootFallback =>
    match json with
    | .vObj fs => .ok (setOwnProp (.vObj fs) fieldName value)
    | .vArr es => .ok (setOwnProp (.vArr es) fieldName value)
    | _ => .error ()
  | .nodeAt segs => .ok (modifyAtSegs json segs (fun parent => setOwnProp parent fieldName value))

/-! ### JSON round-trip deep copy and the submit pipeline -/

mutual

/-- `JSON.parse(JSON.stringify(x))` as a pure value transformation: object
members whose value is `undefined` are dropped, `undefined` array elements
serialise as `null`, everything else survives structurally. -/
def jsonRoundTrip : JsVal → JsVal
  | .vObj fs => .vObj (jsonRoundTripFields fs)
  | .vArr es => .vArr (jsonRoundTripElems es)
  | .vUndefined => .vNull
  | p => p

def jsonRoundTripFields : List (String × JsVal) → List (String × JsVal)
  | [] => []
  | (k, .vUndefined) :: rest => jsonRoundTripFields rest
  | (k, v) :: rest => (k, jsonRoundTrip v) :: jsonRoundTripFields rest

def jsonRoundTripElems : List JsVal → List JsVal
  | [] => []
  | v :: rest => jsonRoundTrip v :: jsonRoundTripElems rest

end

/-- A value posted in the `FormData`: a string, or a `File` (ignored by the
pipeline). -/
inductive FormVal where
  | str (s : String)
  | file

def isUndef : JsVal → Bool
  | .vUndefined => true
  | _ => false

/-- The body of the `formData.forEach` callback in `submitAction`
(part_004 lines 140-154), acting on the accumulated payload:
permission-check the posted name, resolve its type, coerce, and write.
A thrown `TypeError` (from `getFieldType` or `setByPath`) aborts the whole
server action (`Except.error`). -/
def submitStep (schema : Schema) (allowFields : List String) (payload : JsVal)
    (entry : String × FormVal) : Except Unit JsVal :=
  match entry.2 with
  | .file => .ok payload                       -- typeof value !== 'string'
  | .str raw =>
    if isFieldAllowed allowFields entry.1 = false then .ok payload
    else
      match getFieldType schema entry.1 with
      | .crash => .error ()
      | .notFound => .ok payload               -- not in schema
      | .found t e =>
        let coerced := coerceValue t e raw
        if isUndef coerced then .ok payload    -- skip undefined
        else setByPath payload entry.1 coerced

/-- The payload built by `submitAction` (part_004 lines 139-154): a deep
copy of the entity with each posted edit folded in.  The network submission
of the payload is outside the model. -/
def submitActionPayload (schema : Schema) (allowFields : List String)
    (entity : JsVal) (form : List (String × FormVal)) : Except Unit JsVal :=
  form.foldlM (submitStep schema allowFields) (jsonRoundTrip entity)

/-! ### Array removal (`arrayRemoveAction`, part_004 lines 314-320) -/

/-- The start position of `splice(start, …)`: negative counts from the end
(clamped at 0), positive is clamped at the length. -/
def spliceStart (len : Nat) (i : Int) : Nat :=
  if i < 0 then (max ((len : Int) + i) 0).toNat else min i.toNat len

/-- `arr.splice(i, 1)`: remove one element at the clamped start position;
a start at/after the end removes nothing. -/
def spliceOne (es : List JsVal) (i : Int) : List JsVal :=
  let a := spliceStart es.length i
  es.take a ++ es.drop (a + 1)

/-- `current[k].splice(index, 1)` on the container `current`, returning the
updated container; throws (`Except.error`) unless `current[k]` is an array
(`splice` on `undefined` or a non-array is a `TypeError`). -/
def spliceProp (container : JsVal) (k : String) (i : Int) : Except Unit JsVal :=
  match container with
  | .vObj fs =>
    match objLookup fs k with
    | some (.vArr es) => .ok (.vObj (objSetKey fs k (.vArr (spliceOne es i))))
    | _ => .error ()
  | .vArr es =>
    match natOfDigits? k with
    | some n =>
      match es.get? n with
      | some (.vArr inner) => .ok (.vArr (listModifyAt es n (fun _ => .vArr (spliceOne inner i))))
      | _ => .error ()
    | none => .error ()
  | _ => .error ()

/-- The entity update performed by `arrayRemoveAction` (part_004 lines
314-320) once the field path and a non-NaN integer index have been
extracted: deep-copy, locate the parent via `getParentOfTargetPath`, and
`splice` one element out of `current[fieldName]`.  The network submission
of the updated entity is outside the model. -/
def arrayRemoveUpdatedEntity (entity : JsVal) (fieldPath : String) (index : Int) :
    Except Unit JsVal :=
  let updated := jsonRoundTrip entity
  let fieldName := lastDotSegment fieldPath
  match getParentOfTargetPath updated fieldPath with
  | .nullParent => .error ()
  | .rootFallback => spliceProp updated fieldName index
  | .nodeAt segs =>
    match getNodeSegs updated segs with
    | some parent =>
      match spliceProp parent fieldName index with
      | .ok parent' => .ok (modifyAtSegs updated segs (fun _ => parent'))
      | .error e => .error e
    | none => .error ()

/-! ### Array append (`arrayAddAction`, part_004 lines 216-267) -/

/-- The schema-navigation loop of `arrayAddAction` (lines 237-245): walk
`properties` while the node is an object with a truthy `properties`;
anything else sets the node to `null` and breaks.  Reaching an `undefined`
node with parts left throws (`schemaNode.type` on `undefined`). -/
def arrayAddSchemaWalk : Option Schema → List String → Except Unit (Option Schema)
  | cur, [] => .ok cur
  | none, _ :: _ => .error ()
  | some s, part :: rest =>
    if s.type? = some "object" then
      match s.properties? with
      | some props => arrayAddSchemaWalk (propLookup props part) rest
      | none => .ok none
    else .ok none

/-- Default value for one property of the appended item (lines 253-260). -/
def defaultForProp (propSchema : Schema) : JsVal :=
  if propSchema.type? = some "string" then .vStr ""
  else if propSchema.type? = some "number" ∨ propSchema.type? = some "integer" then .vNum 0
  else if propSchema.type? = some "boolean" then .vBool false
  else if propSchema.type? = some "object" then .vObj []
  else if propSchema.type? = some "array" then .vArr []
  else .vNull

/-- The `defaultItem` synthesised by `arrayAddAction` (lines 249-265): a
per-property default when the item schema is an object with (truthy)
properties, the empty string otherwise. -/
def buildDefaultItem (itemSchema : Option Schema) : JsVal :=
  match itemSchema with
  | some it =>
    if it.type? = some "object" then
      match it.properties? with
      | some props => .vObj (props.map (fun kv => (kv.1, defaultForProp kv.2)))
      | none => .vStr ""
    else .vStr ""
  | none => .vStr ""

/-- The entity-navigation loop of `arrayAddAction` (lines 221-234 and the
final `push`): walk the path parts on the copied entity, creating `{}` for
an `undefined` intermediate; at the last part, replace a non-array value by
`[]` and push `item`.  The model covers object containers; a primitive
container (a strict-mode `TypeError` in JS) is a failure. -/
def arrayAddGo (cur : JsVal) (parts : List String) (item : JsVal) :
    Except Unit JsVal :=
  match parts with
  | [] => .error ()
  | [arrayFieldName] =>
    match cur with
    | .vObj fs =>
      let es :=
        match objLookup fs arrayFieldName with
        | some (.vArr es) => es
        | _ => []
      .ok (.vObj (objSetKey fs arrayFieldName (.vArr (es ++ [item]))))
    | _ => .error ()
  | part :: rest =>
    match cur with
    | .vObj fs =>
      let child :=
        match objLookup fs part with
        | some c => c
        | none => JsVal.vObj []
      match arrayAddGo child rest item with
      | .ok child' => .ok (.vObj (objSetKey fs part child'))
      | .error e => .error e
    | _ => .error ()

/-- The entity update performed by `arrayAddAction` (part_004 lines
216-267) for a given field path: deep-copy the entity, synthesise the default
item from the schema, and append it to the addressed array.  The network
submission of the updated entity is outside the model. -/
def arrayAddUpdatedEntity (schema : Schema) (entity : JsVal) (fieldPath : String) :
    Except Unit JsVal :=
  let updated := jsonRoundTrip entity
  let pathParts := (splitDots (stripDollar fieldPath.data)).map String.mk
  match arrayAddSchemaWalk (some schema) pathParts with
  | .error e => .error e
  | .ok nodeOpt =>
    let itemSchema :=
      match nodeOpt with
      | some s => s.items?        -- schemaNode?.items
      | none => none
    arrayAddGo updated pathParts (buildDefaultItem itemSchema)

/-! ### The older reduce-based `setByPath`
(src/app/app-ui/…/page.tsx lines 13-24): strips the `$`, splits on dots,
pops the last part, and `reduce`s over the rest, replacing a nullish or
non-object intermediate with `{}` before descending; finally assigns
`target[last] = value`. -/

/-- The `reduce` + final assignment.  An all-digit part on an array
addresses the element; a non-numeric part on an array creates an expando
chain that is invisible to `JSON.stringify`, so the serialised value is
unchanged.  The root is the `{}` payload object in the source, so the
primitive-root case (unreachable there) returns the value unchanged. -/
def reduceGo (cur : JsVal) (parts : List String) (lastPart : String) (v : JsVal) :
    JsVal :=
  match parts with
  | [] => setOwnProp cur lastPart v
  | k :: rest =>
    match cur with
    | .vObj fs =>
      let child :=
        match objLookup fs k with
        | some (.vObj cfs) => JsVal.vObj cfs
        | some (.vArr ces) => JsVal.vArr ces
        | _ => JsVal.vObj []    -- acc[k] == null or not an object → {}
      .vObj (objSetKey fs k (reduceGo child rest lastPart v))
    | .vArr es =>
      match natOfDigits? k with
      | some n =>
        if h : n < es.length then
          let c :=
            match es.get ⟨n, h⟩ with
            | .vObj cfs => JsVal.vObj cfs
            | .vArr ces => JsVal.vArr ces
            | _ => JsVal.vObj []
          .vArr (listModifyAt es n (fun _ => reduceGo c rest lastPart v))
        else
          .vArr (es ++ List.replicate (n - es.length) .vNull ++
            [reduceGo (JsVal.vObj []) rest lastPart v])
      | none => .vArr es
    | p => p

/-- `setByPath(obj, path, value)` from the older route (page.tsx 13-24). -/
def setByPathReduce (obj : JsVal) (path : String) (value : JsVal) : JsVal :=
  let parts := (splitDots (stripDollar path.data)).map String.mk
  let lastPart :=
    match parts.reverse with
    | l :: _ => l
    | [] => ""
  reduceGo obj parts.dropLast lastPart value

/-! ### Heap model of `submitAction` (part_004 lines 139-154)

JS objects live on a heap and are passed by reference, so the claim that
`submitAction` never mutates its `entity` argument is a statement about
object identity that the pure value embedding cannot express.  The heap is
made explicit: a store is a list of nodes addressed by index, an object or
array node holds the addresses of its children, and the entity is an
address into the store.  Reading decodes a node graph back into a `JsVal`;
`JSON.parse(JSON.stringify(entity))` reads the entity's value out of the
store, applies the round-trip transformation and allocates a fresh copy;
`setByPath` navigates the copy's addresses exactly as the JSONPath-based
pure `setByPath` navigates values, and mutates the store in place at the
addressed node. -/

/-- A heap node: a JS primitive, or an object/array holding the store
addresses of its members. -/
inductive HNode where
  | hStr (s : String)
  | hNum (q : Rat)
  | hBool (b : Bool)
  | hNull
  | hUndef
  | hObj (fields : List (String × Nat))
  | hArr (elems : List Nat)

/-- A store: heap nodes addressed by their list index. -/
abbrev Store := List HNode

/-- The child addresses a node holds. -/
def nodeRefs : HNode → List Nat
  | .hObj fs => fs.map (fun kv => kv.2)
  | .hArr es => es
  | _ => []

/-- Read every field of an object node with the supplied address reader,
failing if any field fails. -/
def optFields (f : Nat → Option JsVal) : List (String × Nat) → Option (List (String × JsVal))
  | [] => some []
  | kv :: rest =>
    match f kv.2, optFields f rest with
    | some v, some vs => some ((kv.1, v) :: vs)
    | _, _ => none

/-- Read every element of an array node with the supplied address reader. -/
def optElems (f : Nat → Option JsVal) : List Nat → Option (List JsVal)
  | [] => some []
  | r :: rest =>
    match f r, optElems f rest with
    | some v, some vs => some (v :: vs)
    | _, _ => none

/-- One layer of heap reading: decode the node at an address, reading its
children with `ih`. -/
def readHStep (ih : Store → Nat → Option JsVal) (s : Store) (a : Nat) : Option JsVal :=
  match s.get? a with
  | none => none
  | some (.hStr t) => some (.vStr t)
  | some (.hNum q) => some (.vNum q)
  | some (.hBool b) => some (.vBool b)
  | some .hNull => some .vNull
  | some .hUndef => some .vUndefined
  | some (.hObj fs) => (optFields (ih s) fs).map .vObj
  | some (.hArr es) => (optElems (ih s) es).map .vArr

/-- Decode the value rooted at an address, with fuel bounding the depth
(a finite acyclic heap reads fully for large enough fuel). -/
def readH : Nat → Store → Nat → Option JsVal
  | 0 => fun _ _ => none
  | fuel + 1 => readHStep (readH fuel)

mutual

/-- Allocate a fresh node graph holding the value `v`, appending at the end
of the store (this is what `JSON.parse` does: every node of its result is a
new object, sharing nothing with any pre-existing one).  Returns the new
store and the address of the root of the copy. -/
def allocH : Store → JsVal → Store × Nat
  | s, .vStr t => (s ++ [.hStr t], s.length)
  | s, .vNum q => (s ++ [.hNum q], s.length)
  | s, .vBool b => (s ++ [.hBool b], s.length)
  | s, .vNull => (s ++ [.hNull], s.length)
  | s, .vUndefined => (s ++ [.hUndef], s.length)
  | s, .vObj fs =>
    let p := allocHFields s fs
    (p.1 ++ [.hObj p.2], p.1.length)
  | s, .vArr es =>
    let p := allocHElems s es
    (p.1 ++ [.hArr p.2], p.1.length)

/-- Allocate each field value in turn, collecting the field addresses. -/
def allocHFields : Store → List (String × JsVal) → Store × List (String × Nat)
  | s, [] => (s, [])
  | s, (k, v) :: rest =>
    let p := allocH s v
    let q := allocHFields p.1 rest
    (q.1, (k, p.2) :: q.2)

/-- Allocate each element in turn, collecting the element addresses. -/
def allocHElems : Store → List JsVal → Store × List Nat
  | s, [] => (s, [])
  | s, v :: rest =>
    let p := allocH s v
    let q := allocHElems p.1 rest
    (q.1, p.2 :: q.2)

end

/-- Allocate `n` fresh `null` nodes (the holes JS creates when an array is
extended past its end), returning their addresses. -/
def allocNulls : Store → Nat → Store × List Nat
  | s, 0 => (s, [])
  | s, n + 1 =>
    let q := allocNulls (s ++ [.hNull]) n
    (q.1, s.length :: q.2)

/-- Navigate a segment list from an address, mirroring `getNodeSegs` (the
JSONPath navigation of part_004 lines 14-25) on the heap: object nodes are
entered by key, array nodes by numeric index. -/
def getAddrSegs (s : Store) : Nat → List Seg → Option Nat
  | a, [] => some a
  | a, seg :: rest =>
    match s.get? a with
    | some (.hObj fs) =>
      match seg with
      | .key k =>
        match fs.find? (fun kv => kv.1 = k) with
        | some kv => getAddrSegs s kv.2 rest
        | none => none
      | .idx n =>
        match fs.find? (fun kv => kv.1 = toString n) with
        | some kv => getAddrSegs s kv.2 rest
        | none => none
    | some (.hArr es) =>
      match seg with
      | .key k =>
        match natOfDigits? k with
        | some n =>
          match es.get? n with
          | some c => getAddrSegs s c rest
          | none => none
        | none => none
      | .idx n =>
        match es.get? n with
        | some c => getAddrSegs s c rest
        | none => none
    | _ => none

/-- Field list of an object node with key `k` set to address `r`
(`objSetKey` with addresses in place of values). -/
def objSetKeyRef (fs : List (String × Nat)) (k : String) (r : Nat) : List (String × Nat) :=
  if (fs.find? (fun kv => kv.1 = k)).isSome then
    fs.map (fun kv => if kv.1 = k then (kv.1, r) else kv)
  else fs ++ [(k, r)]

/-- `targetObj[fieldName] = value` on the heap (`setOwnProp` with the
target given by address): allocate the value, then update the target node
in place.  Object keys are set or overwritten; a numeric index on an array
writes the element, extending with `null` holes past the end; a
non-numeric key on an array is an expando, invisible to serialisation;
assigning a property of a primitive or of a missing node throws. -/
def setKeyAtAddr (s : Store) (a : Nat) (k : String) (value : JsVal) : Except Unit Store :=
  match s.get? a with
  | some (.hObj fs) =>
    let p := allocH s value
    .ok (p.1.set a (.hObj (objSetKeyRef fs k p.2)))
  | some (.hArr es) =>
    match natOfDigits? k with
    | some n =>
      let p := allocH s value
      if n < es.length then .ok (p.1.set a (.hArr (es.set n p.2)))
      else
        let q := allocNulls p.1 (n - es.length)
        .ok (q.1.set a (.hArr (es ++ q.2 ++ [p.2])))
    | none => .ok s
  | some _ => .error ()
  | none => .error ()

/-- `setByPath(json, path, value)` (part_004 lines 28-33) on the heap: the
same JSONPath parent lookup as the pure `setByPath` — parent of the full
match when the path resolves, the root otherwise, an error on the empty
path — followed by the in-place assignment of the last dot-chunk. -/
def setByPathH (s : Store) (root : Nat) (path : String) (value : JsVal) :
    Except Unit Store :=
  let fieldName := lastDotSegment path
  match parseJPath path with
  | none => setKeyAtAddr s root fieldName value
  | some [] => .error ()
  | some segs =>
    match getAddrSegs s root segs with
    | some _ =>
      match getAddrSegs s root segs.dropLast with
      | some p => setKeyAtAddr s p fieldName value
      | none => .error ()
    | none => setKeyAtAddr s root fieldName value

/-- One `formData.forEach` callback body (part_004 lines 140-154) on the
heap, threading the store and a crash flag: a thrown `TypeError` (from
`getFieldType` or from the assignment) aborts the forEach, so once the
flag is set every later entry is a no-op and the store is left as the
exception found it. -/
def submitStepH (schema : Schema) (allowFields : List String) (payloadAddr : Nat)
    (acc : Store × Bool) (entry : String × FormVal) : Store × Bool :=
  if acc.2 then acc
  else
    match entry.2 with
    | .file => acc
    | .str raw =>
      if isFieldAllowed allowFields entry.1 = false then acc
      else
        match getFieldType schema entry.1 with
        | .crash => (acc.1, true)
        | .notFound => acc
        | .found t e =>
          let coerced := coerceValue t e raw
          if isUndef coerced then acc
          else
            match setByPathH acc.1 payloadAddr entry.1 coerced with
            | .ok s2 => (s2, false)
            | .error _ => (acc.1, true)

/-- `submitAction` (part_004 lines 139-154) on the heap: serialise the
entity at its address (`JSON.stringify` reads, it does not write), allocate
the parsed copy as the payload, then fold the posted entries over it.
Returns the final store, the crash flag, and the payload's address; the
network submission of the payload is outside the model. -/
def submitActionH (schema : Schema) (allowFields : List String) (s : Store)
    (entityAddr : Nat) (form : List (String × FormVal)) (fuel : Nat) :
    Store × Bool × Nat :=
  match readH fuel s entityAddr with
  | none => (s, true, 0)
  | some v =>
    let c := allocH s (jsonRoundTrip v)
    let r := form.foldl (submitStepH schema allowFields c.2) (c.1, false)
    (r.1, r.2, c.2)

/-- Every node of `t` refers only to addresses at or above `b`. -/
def tailRefsGe (b : Nat) (t : List HNode) : Prop :=
  ∀ node ∈ t, ∀ r ∈ nodeRefs node, b ≤ r

/-- The region of the store at or above `b` is closed: its nodes refer only
to addresses at or above `b`.  The freshly allocated payload copy lives in
this region, so every write the submit fold performs lands there. -/
def highClosed (b : Nat) (s : Store) : Prop :=
  ∀ a node, b ≤ a → s.get? a = some node → ∀ r ∈ nodeRefs node, b ≤ r

/-- How a store evolves under the submit fold relative to the base `b`
(the pre-copy store length): it only grows, the region below `b` is
untouched, and closedness of the high region is preserved. -/
def evolves (b : Nat) (s s2 : Store) : Prop :=
  s.length ≤ s2.length ∧
    (b ≤ s.length →
      (∀ i, i < b → s2.get? i = s.get? i) ∧ (highClosed b s → highClosed b s2))

/-- A plain member name: non-empty, without `.` or `[` (the characters that
would change how the string-level path functions cut it up). -/
def plainKey (s : String) : Bool :=
  s.data ≠ [] && s.data.all (fun c => c ≠ '.' && c ≠ '[')

/-! ### Loop-state presentation of the `getFieldType` traversal

`gftLoop` interleaves traversal with its early returns; for reasoning we
re-present it as a fold over an explicit state (`loopGo`) plus a final
read-off (`finishSt`), and prove the two agree (`gftLoop_eq_loopGo`). -/

inductive LoopSt where
  | run (cur : Option Schema)
  | fellS
  | crashS

/-- One iteration of the `for (const part of parts)` loop. -/
def loopStep : LoopSt → String → LoopSt
  | .fellS, _ => .fellS
  | .crashS, _ => .crashS
  | .run none, _ => .crashS
  | .run (some s), part =>
    if s.type? = some "object" then
      match s.properties? with
      | none => .crashS
      | some props => .run (propLookup props part)
    else if s.type? = some "array" then
      match s.items? with
      | none => .crashS
      | some it =>
        if it.type? = some "object" then
          match it.properties? with
          | none => .crashS
          | some props => .run (propLookup props part)
        else .fellS
    else .fellS

def loopGo (st : LoopSt) (parts : List String) : LoopSt :=
  parts.foldl loopStep st

/-- The final `return` of `getFieldType` on the loop's outcome. -/
def finishSt : LoopSt → GftOut
  | .run none => .crash
  | .run (some s) => .found (s.type?.getD "string") s.enum?
  | .fellS => .notFound
  | .crashS => .crash

/-- A node at which the traversal "cannot proceed": not object-typed, and
if array-typed then its item schema exists but is not object-typed.
This is exactly the `else { return null }` branch of the loop. -/
def stopsNode (s : Schema) : Prop :=
  s.type? ≠ some "object" ∧
  (s.type? = some "array" → ∃ it, s.items? = some it ∧ it.type? ≠ some "object")

mutual

/-- Shape sub-tree relation: equal `type`, every property of `u` present in
`f` with sub-tree schema, item schema (when present in `u`) present in `f`
with sub-tree schema. -/
def isSubSchema : Schema → Schema → Bool
  | .mk t1 p1 i1 _ _, .mk t2 p2 i2 _ _ =>
    (t1 == t2) &&
    (match p1, p2 with
     | none, _ => true
     | some _, none => false
     | some pu, some pf => isSubProps pu pf) &&
    (match i1, i2 with
     | none, _ => true
     | some _, none => false
     | some iu, some fi => isSubSchema iu fi)

def isSubProps : List (String × Schema) → List (String × Schema) → Bool
  | [], _ => true
  | (k, c) :: rest, pf =>
    (match propLookup pf k with
     | some fc => isSubSchema c fc
     | none => false) && isSubProps rest pf

end

mutual

/-- Every property name anywhere in the schema is a plain member name
(non-empty, no `.`, no `[`). -/
def plainKeysSchema : Schema → Bool
  | .mk _ p i _ _ =>
    (match p with
     | none => true
     | some pu => plainKeysProps pu) &&
    (match i with
     | none => true
     | some iu => plainKeysSchema iu)

def plainKeysProps : List (String × Schema) → Bool
  | [] => true
  | (k, c) :: rest => plainKey k && plainKeysSchema c && plainKeysProps rest

end

/-- The shapes of path tails `extractFieldPaths` emits below a node,
mirroring its branch structure. -/
inductive TailOf : Schema → String → Prop where
  | objStep {u : Schema} {pu : List (String × Schema)} {k : String} {c : Schema}
      {t' : String} :
      u.type? = some "object" → u.properties? = some pu → (k, c) ∈ pu →
      c.type? = some "object" → TailOf c t' → TailOf u ("." ++ k ++ t')
  | primLeaf {u : Schema} {pu : List (String × Schema)} {k : String} {c : Schema} :
      u.type? = some "object" → u.properties? = some pu → (k, c) ∈ pu →
      c.type? ≠ some "object" → c.type? ≠ some "array" → TailOf u ("." ++ k)
  | arrSelf {u : Schema} {pu : List (String × Schema)} {k : String} {c i : Schema} :
      u.type? = some "object" → u.properties? = some pu → (k, c) ∈ pu →
      c.type? = some "array" → c.items? = some i → TailOf u ("." ++ k)
  | arrItemPrim {u : Schema} {pu : List (String × Schema)} {k : String} {c i : Schema} :
      u.type? = some "object" → u.properties? = some pu → (k, c) ∈ pu →
      c.type? = some "array" → c.items? = some i →
      i.type? ≠ some "object" → i.type? ≠ some "array" →
      TailOf u ("." ++ k ++ "[]")
  | arrItemRec {u : Schema} {pu : List (String × Schema)} {k : String} {c i : Schema}
      {t' : String} :
      u.type? = some "object" → u.properties? = some pu → (k, c) ∈ pu →
      c.type? = some "array" → c.items? = some i →
      (i.type? = some "object" ∨ i.type? = some "array") → TailOf i t' →
      TailOf u ("." ++ k ++ "[]" ++ t')
  | arrTopPrim {u i : Schema} :
      u.type? ≠ some "object" → u.type? = some "array" → u.items? = some i →
      ¬(i.type? = some "object" ∨ i.type? = some "array") → TailOf u "[]"
  | arrTopRec {u i : Schema} {t' : String} :
      u.type? ≠ some "object" → u.type? = some "array" → u.items? = some i →
      (i.type? = some "object" ∨ i.type? = some "array") → TailOf i t' →
      TailOf u ("[]" ++ t')

/-- The loop parts a tail contributes after the global cleaning, for tails
below an object node (which always start with `.`). -/
def tailParts (t : String) : List String :=
  (splitDots (replFirstIdx [] (t.data.drop 1))).map String.mk

/-- Nested-array fixture: `{a: array of array of string}`. -/
def nestedArraySchema : Schema :=
  Schema.mk (some "object")
    (some [("a", Schema.mk (some "array") none
      (some (Schema.mk (some "array") none
        (some (Schema.mk (some "string") none none none none)) none none))
      none none)])
    none none none

/-- Update-schema fixture `{name}`. -/
def updNameSchema : Schema :=
  Schema.mk (some "object")
    (some [("name", Schema.mk (some "string") none none none none)])
    none none none

/-- Full-schema fixture `{name, email}`. -/
def fullNameEmailSchema : Schema :=
  Schema.mk (some "object")
    (some [("name", Schema.mk (some "string") none none none none),
           ("email", Schema.mk (some "string") none none none none)])
    none none none

/-! ### Spec-modelled normalizer state (for C9) -/

/-- Modelled from the spec: a schema node as seen by the §4.2 normalizer —
an optional primitive kind, optional `$ref` pointer (a segment path into
the root document), optional `anyOf`/`oneOf`/`allOf` lists, and named
children for pointer walking.  The source has no such operation; this
models the missing Schema Normalizer component. -/
inductive SNode where
  | mk (kind : Option String)
       (refPath : Option (List String))
       (anyOfB : Option (List SNode))
       (oneOfB : Option (List SNode))
       (allOfB : Option (List SNode))
       (children : List (String × SNode))

def SNode.kind : SNode → Option String
  | .mk k _ _ _ _ _ => k

def SNode.refPath : SNode → Option (List String)
  | .mk _ r _ _ _ _ => r

def SNode.anyOfB : SNode → Option (List SNode)
  | .mk _ _ a _ _ _ => a

def SNode.oneOfB : SNode → Option (List SNode)
  | .mk _ _ _ o _ _ => o

def SNode.allOfB : SNode → Option (List SNode)
  | .mk _ _ _ _ a _ => a

def SNode.children : SNode → List (String × SNode)
  | .mk _ _ _ _ _ c => c

/-- Modelled from the spec: walk the referenced document's structure
segment by segment from the root. -/
def walkRef (root : SNode) : List String → Option SNode
  | [] => some root
  | seg :: rest =>
    match (root.children.find? (fun kv => kv.1 = seg)) with
    | some kv => walkRef kv.2 rest
    | none => none

/-- Modelled from the spec: a branch is treated as "null" only if its
declared kind is exactly `null`. -/
def branchIsNull (b : SNode) : Bool :=
  b.kind == some "null"

/-- Modelled from the spec: normalization failures (§4.2 / §7). -/
inductive NormErr where
  | unresolvableReference
  | noViableUnionBranch
  | depthExceeded

/-- Modelled from the spec (§4.2): resolve `$ref` by walking from the
root, pick the first non-null `anyOf`/`oneOf` branch, pick the first
`allOf` member, otherwise return the node unchanged.  The fuel bounds the
indirection chain (a cyclic `$ref` exhausts it). -/
def normalize (fuel : Nat) (root node : SNode) : Except NormErr SNode :=
  match fuel with
  | 0 => .error .depthExceeded
  | fuel + 1 =>
    match node.refPath with
    | some segs =>
      match walkRef root segs with
      | some target => normalize fuel root target
      | none => .error .unresolvableReference
    | none =>
      match node.anyOfB with
      | some branches =>
        match branches.find? (fun b => ¬ branchIsNull b) with
        | some b => normalize fuel root b
        | none => .error .noViableUnionBranch
      | none =>
        match node.oneOfB with
        | some branches =>
          match branches.find? (fun b => ¬ branchIsNull b) with
          | some b => normalize fuel root b
          | none => .error .noViableUnionBranch
        | none =>
          match node.allOfB with
          | some (m :: _) => normalize fuel root m
          | _ => .ok node

/-! ## Theorems -/

/-! ### C4: `valuePathToFieldPath` collapses only the first index, and is
idempotent -/

theorem idxClose_of_replFirst_none {cs : List Char}
    (h : idxClose cs = none) : idxClose (replFirstIdx ['[', ']'] cs) = none := by
  induction cs with
  | nil => simpa using h
  | cons c cs ih =>
    by_cases hd : Char.isDigit c
    · have hne : ¬ c = '[' := by
        intro he; subst he; simp [Char.isDigit] at hd
      have hcs : idxClose cs = none := by
        simpa [idxClose, List.dropWhile, hd] using h
      have : idxClose (c :: replFirstIdx ['[', ']'] cs) = idxClose (replFirstIdx ['[', ']'] cs) := by
        simp [idxClose, List.dropWhile, hd]
      simp only [replFirstIdx, if_neg hne]
      rw [this]
      exact ih hcs
    · have hb : ¬ c = ']' := by
        intro he
        subst he
        simp [idxClose, List.dropWhile, hd] at h
      by_cases hbr : c = '['
      · subst hbr
        simp only [replFirstIdx, if_pos rfl]
        match hc : idxClose cs with
        | some r => simp [idxClose, List.dropWhile, Char.isDigit]
        | none => simp [idxClose, List.dropWhile, Char.isDigit]
      · simp only [replFirstIdx, if_neg hbr]
        simp [idxClose, List.dropWhile, hd, hb]

theorem replFirstIdx_idem (l : List Char) :
    replFirstIdx ['[', ']'] (replFirstIdx ['[', ']'] l) = replFirstIdx ['[', ']'] l := by
  induction l with
  | nil => rfl
  | cons c cs ih =>
    by_cases hbr : c = '['
    · subst hbr
      match hc : idxClose cs with
      | some r =>
        simp only [replFirstIdx, if_pos rfl, hc]
        have : idxClose (']' :: r) = some r := by
          simp [idxClose, List.dropWhile, Char.isDigit]
        simp [this]
      | none =>
        simp only [replFirstIdx, if_pos rfl, hc]
        have := idxClose_of_replFirst_none hc
        simp only [replFirstIdx, if_pos rfl, this]
        rw [ih]
    · simp only [replFirstIdx, if_neg hbr]
      rw [ih]

/-- Counterexample to C4 as stated: on a value path with two indexed
segments, `valuePathToFieldPath` (the source's `toSchemaPath`) collapses
only the first one — the result still contains a concrete index and differs
from the all-collapsed schema path. -/
theorem valuePathToFieldPath_two_indices_cex :
    valuePathToFieldPath "$.a[0].b[1]" = "$.a[].b[1]" ∧
    hasConcreteIdx (valuePathToFieldPath "$.a[0].b[1]").data = true ∧
    toSchemaPathAll "$.a[0].b[1]" = "$.a[].b[]" := by
  refine ⟨by decide, by decide, by decide⟩

/-- C4 (amended): `valuePathToFieldPath` replaces only the FIRST indexed
array segment of a value path with the unindexed marker (the single-index
examples of the claim hold: `$.a[3].b` and `$.a[7].b` both map to
`$.a[].b`), and the function is idempotent. -/
theorem valuePathToFieldPath_first_index_and_idem :
    valuePathToFieldPath "$.a[3].b" = "$.a[].b" ∧
    valuePathToFieldPath "$.a[7].b" = "$.a[].b" ∧
    ∀ s : String, valuePathToFieldPath (valuePathToFieldPath s) = valuePathToFieldPath s := by
  refine ⟨by decide, by decide, fun s => ?_⟩
  simp only [valuePathToFieldPath]
  exact congrArg String.mk (replFirstIdx_idem s.data)

/-! ### C7: number/integer coercion -/

/-- C7: for a schema node of kind `number` or `integer`, coercion maps an
empty/blank string to `null`, a string whose JS-number value is non-finite
(including `NaN` for unparsable input) to `null`, and otherwise yields the
parsed number.  `coerceValue` is a total function into `JsVal`, so no input
makes it throw. -/
theorem coerceValue_number_rules (t : String) (e : Option (List JsVal)) (raw : String)
    (ht : t = "number" ∨ t = "integer") :
    (jsTrim raw = "" → coerceValue t e raw = .vNull) ∧
    (jsTrim raw ≠ "" → ∀ q, jsNumber raw = .fin q → coerceValue t e raw = .vNum q) ∧
    (jsTrim raw ≠ "" → (jsNumber raw).isFinite = false → coerceValue t e raw = .vNull) := by
  refine ⟨fun hb => ?_, fun hb q hq => ?_, fun hb hf => ?_⟩
  · simp [coerceValue, ht, hb]
  · simp [coerceValue, ht, hb, hq]
  · unfold coerceValue
    rw [if_pos ht, if_neg hb]
    match hn : jsNumber raw with
    | .fin q => rw [hn] at hf; simp [JsNum.isFinite] at hf
    | .nan => rfl
    | .inf => rfl
    | .negInf => rfl

/-- Witness for C7 at concrete inputs: `"12"` parses to `12`, `"  "` is
blank, `"abc"` is `NaN`. -/
theorem coerceValue_number_rules_witness :
    coerceValue "number" none "12" = .vNum 12 ∧
    coerceValue "number" none "  " = .vNull ∧
    coerceValue "integer" none "abc" = .vNull := by
  refine ⟨?_, ?_, ?_⟩
  · exact (coerceValue_number_rules "number" none "12" (Or.inl rfl)).2.1 (by decide) 12 (by decide)
  · exact (coerceValue_number_rules "number" none "  " (Or.inl rfl)).1 (by decide)
  · exact (coerceValue_number_rules "integer" none "abc" (Or.inr rfl)).2.2 (by decide) (by decide)

/-! ### C1: permission filtering in the update pipeline -/

theorem takeWhile_nil_dropWhile {p : Char → Bool} {l : List Char}
    (h : l.takeWhile p = []) : l.dropWhile p = l := by
  cases l with
  | nil => rfl
  | cons c cs =>
    by_cases hp : p c
    · simp [List.takeWhile, hp] at h
    · simp [List.dropWhile, hp]

/-- An index-free list is a fixed point of the collapse-all worker. -/
theorem replAllAux_of_no_concrete (fuel : Nat) :
    ∀ l : List Char, l.length ≤ fuel → hasConcreteIdx l = false →
      replAllAux fuel l = l := by
  induction fuel with
  | zero => intro l _ _; cases l <;> rfl
  | succ fuel ih =>
    intro l hlen hci
    match l with
    | [] => rfl
    | c :: cs =>
      simp only [hasConcreteIdx, Bool.or_eq_false_iff, Bool.and_eq_false_iff] at hci
      obtain ⟨hd1, hd2⟩ := hci
      by_cases hbr : c = '['
      · subst hbr
        match hic : idxClose cs with
        | some r =>
          have hdw : cs.dropWhile Char.isDigit = ']' :: r := by
            unfold idxClose at hic
            revert hic
            match cs.dropWhile Char.isDigit with
            | [] => intro h; cases h
            | ']' :: r' => intro h; cases h; rfl
            | c' :: r' =>
              intro h
              by_cases hc : c' = ']'
              · subst hc; cases h; rfl
              · simp [hc] at h
          have htw : cs.takeWhile Char.isDigit = [] := by
            rcases hd1 with h | h
            · simp at h
            rcases h with h | h
            · simpa using h
            · rw [hdw] at h; simp at h
          have hcs : cs = ']' :: r := by
            rw [← takeWhile_nil_dropWhile htw, hdw]
          subst hcs
          have hr : hasConcreteIdx r = false := by
            simp only [hasConcreteIdx, Bool.or_eq_false_iff] at hd2
            exact hd2.2
          simp only [List.length_cons] at hlen
          have : replAllAux fuel r = r := ih r (by omega) hr
          simp [replAllAux, hic, this]
        | none =>
          simp only [List.length_cons] at hlen
          simp [replAllAux, hic, ih cs (by omega) hd2]
      · simp only [List.length_cons] at hlen
        simp [replAllAux, hbr, ih cs (by omega) hd2]

/-- When the single-replacement result `replFirstIdx` is index-free, it
agrees with the collapse-all function. -/
theorem replAllAux_eq_replFirst (fuel : Nat) :
    ∀ l : List Char, l.length ≤ fuel →
      hasConcreteIdx (replFirstIdx ['[', ']'] l) = false →
      replAllAux fuel l = replFirstIdx ['[', ']'] l := by
  induction fuel with
  | zero =>
    intro l hlen _
    have : l = [] := List.length_eq_zero.mp (Nat.le_zero.mp hlen)
    subst this; rfl
  | succ fuel ih =>
    intro l hlen hci
    match l with
    | [] => rfl
    | c :: cs =>
      by_cases hbr : c = '['
      · subst hbr
        match hic : idxClose cs with
        | some r =>
          simp only [replFirstIdx, if_pos rfl, hic] at hci ⊢
          simp only [List.append_eq, List.cons_append, List.nil_append] at hci
          simp only [hasConcreteIdx, Bool.or_eq_false_iff] at hci
          have hr : hasConcreteIdx r = false := hci.2.2
          have hrlen : r.length ≤ fuel := by
            have := idxClose_length_le hic
            simp only [List.length_cons] at hlen
            omega
          simp [replAllAux, hic, replAllAux_of_no_concrete fuel r hrlen hr]
        | none =>
          simp only [replFirstIdx, if_pos rfl, hic] at hci ⊢
          simp only [hasConcreteIdx, Bool.or_eq_false_iff] at hci
          simp only [List.length_cons] at hlen
          simp [replAllAux, hic, ih cs (by omega) hci.2]
      · simp only [replFirstIdx, if_neg hbr] at hci ⊢
        simp only [hasConcreteIdx, Bool.or_eq_false_iff] at hci
        simp only [List.length_cons] at hlen
        simp [replAllAux, hbr, ih cs (by omega) hci.2]

/-- If the first-collapse of a posted name lies in an index-free allow
list, it coincides with the all-collapsed schema path. -/
theorem valuePath_collapse_agree {name : String}
    (h : hasConcreteIdx (valuePathToFieldPath name).data = false) :
    toSchemaPathAll name = valuePathToFieldPath name := by
  unfold toSchemaPathAll replAllIdx
  unfold valuePathToFieldPath at h ⊢
  exact congrArg String.mk
    (replAllAux_eq_replFirst name.data.length name.data (Nat.le_refl _) h)

/-- Coercion always produces a defined value (`undefined` is impossible, so
the `coerced === undefined` skip never fires). -/
theorem coerceValue_not_undefined (t : String) (e : Option (List JsVal)) (raw : String) :
    isUndef (coerceValue t e raw) = false := by
  unfold coerceValue
  split
  · split
    · rfl
    · split <;> rfl
  · split
    · rfl
    · split
      · split
        · split <;> rfl
        · rfl
      · rfl

/-- C1: permission filtering of `submitAction`.  With a non-empty allow
list of schema paths (index-free, per the data model), a posted field whose
schema path (all concrete indices collapsed) is not in the list is silently
dropped: the step returns the payload unchanged and raises no error.  With
an empty allow list every posted field passes the permission check, and any
schema-resolvable field is applied via coercion and `setByPath`. -/
theorem submitAction_permission_filtering
    (schema : Schema) (allowFields : List String) (payload : JsVal)
    (name raw : String) :
    (allowFields ≠ [] →
      (∀ a ∈ allowFields, hasConcreteIdx a.data = false) →
      toSchemaPathAll name ∉ allowFields →
      submitStep schema allowFields payload (name, .str raw) = .ok payload) ∧
    (allowFields = [] →
      isFieldAllowed allowFields name = true ∧
      ∀ t e, getFieldType schema name = .found t e →
        submitStep schema allowFields payload (name, .str raw) =
          setByPath payload name (coerceValue t e raw)) := by
  constructor
  · intro hne hidx hnotin
    have hlen : 0 < allowFields.length := List.length_pos.mpr hne
    have hnal : isFieldAllowed allowFields name = false := by
      unfold isFieldAllowed
      rw [if_pos hlen]
      by_contra hcon
      rw [Bool.not_eq_false] at hcon
      have hmem : valuePathToFieldPath name ∈ allowFields := by
        simpa using hcon
      have hci := hidx _ hmem
      have := valuePath_collapse_agree hci
      rw [this] at hnotin
      exact hnotin hmem
    simp [submitStep, hnal]
  · intro hempty
    subst hempty
    have hall : isFieldAllowed [] name = true := by
      simp [isFieldAllowed]
    refine ⟨hall, fun t e hft => ?_⟩
    simp only [submitStep, hall, Bool.true_eq_false, if_false, hft]
    rw [if_neg (by simp [coerceValue_not_undefined])]

/-- Witness for C1: with allow list `["$.name"]`, the posted field
`$.address.street1` (schema path `$.address.street1`) is dropped; with the
empty allow list the same field passes the permission check and is applied
to the payload. -/
theorem submitAction_permission_filtering_witness :
    (submitStep
      (Schema.mk (some "object")
        (some [("name", Schema.mk (some "string") none none none none),
               ("address", Schema.mk (some "object")
                 (some [("street1", Schema.mk (some "string") none none none none)])
                 none none none)])
        none none none)
      ["$.name"] (JsVal.vObj [("name", JsVal.vStr "Acme")])
      ("$.address.street1", .str "X") = .ok (JsVal.vObj [("name", JsVal.vStr "Acme")])) ∧
    (isFieldAllowed [] "$.address.street1" = true) := by
  constructor
  · exact (submitAction_permission_filtering _ ["$.name"] _ "$.address.street1" "X").1
      (by decide) (by decide) (by decide)
  · exact ((submitAction_permission_filtering
      (Schema.mk (some "object") none none none none) [] (JsVal.vObj [])
      "$.address.street1" "X").2 rfl).1

/-! ### Path-shape lemmas for plain member names -/

theorem takeWhile_of_all {p : Char → Bool} :
    ∀ {l : List Char}, l.all p = true → l.takeWhile p = l := by
  intro l h
  induction l with
  | nil => rfl
  | cons c cs ih =>
    simp only [List.all_cons, Bool.and_eq_true] at h
    simp [List.takeWhile, h.1, ih h.2]

theorem dropWhile_of_all {p : Char → Bool} :
    ∀ {l : List Char}, l.all p = true → l.dropWhile p = [] := by
  intro l h
  induction l with
  | nil => rfl
  | cons c cs ih =>
    simp only [List.all_cons, Bool.and_eq_true] at h
    simp [List.dropWhile, h.1, ih h.2]

theorem splitDots_no_dot {l : List Char} (h : l.all (· ≠ '.') = true) :
    splitDots l = [l] := by
  induction l with
  | nil => rfl
  | cons c cs ih =>
    simp only [List.all_cons, Bool.and_eq_true, decide_eq_true_eq] at h
    simp [splitDots, h.1, ih (by simpa using h.2)]

theorem splitDots_prefix_no_dot {x : List Char} (hx : x.all (· ≠ '.') = true)
    (y : List Char) : splitDots (x ++ '.' :: y) = x :: splitDots y := by
  induction x with
  | nil => simp [splitDots]
  | cons c cs ih =>
    simp only [List.all_cons, Bool.and_eq_true, decide_eq_true_eq] at hx
    simp only [List.cons_append, splitDots, if_neg hx.1, List.append_eq]
    rw [ih (by simpa using hx.2)]

theorem plainKey_no_dot {n : String} (h : plainKey n = true) :
    n.data.all (· ≠ '.') = true := by
  unfold plainKey at h
  simp only [Bool.and_eq_true, List.all_eq_true, Bool.and_eq_true,
    decide_eq_true_eq] at h ⊢
  exact fun c hc => (h.2 c hc).1

theorem plainKey_no_bracket {n : String} (h : plainKey n = true) :
    n.data.all (· ≠ '[') = true := by
  unfold plainKey at h
  simp only [Bool.and_eq_true, List.all_eq_true, Bool.and_eq_true,
    decide_eq_true_eq] at h ⊢
  exact fun c hc => (h.2 c hc).2

theorem plainKey_ne_nil {n : String} (h : plainKey n = true) : n.data ≠ [] := by
  unfold plainKey at h
  simp only [Bool.and_eq_true, ne_eq, decide_eq_true_eq] at h
  simpa using h.1

theorem parseSegChunk_plain {n : String} (h : plainKey n = true) :
    parseSegChunk n.data = some [Seg.key n] := by
  unfold parseSegChunk
  rw [takeWhile_of_all (by simpa using plainKey_no_bracket h),
      dropWhile_of_all (by simpa using plainKey_no_bracket h)]
  simp only [parseBrackets]
  rw [if_neg (by simp [plainKey_ne_nil h])]
  simp [parseBracketsAux, plainKey_ne_nil h]

theorem string_data_dollar_dot (n : String) :
    ("$." ++ n).data = '$' :: '.' :: n.data := by
  rw [String.data_append]; rfl

theorem string_data_dollar_dot_two (n₁ n₂ : String) :
    ("$." ++ n₁ ++ "." ++ n₂).data = '$' :: '.' :: (n₁.data ++ '.' :: n₂.data) := by
  rw [String.data_append, String.data_append, String.data_append]
  show ['$', '.'] ++ n₁.data ++ ['.'] ++ n₂.data = _
  simp

theorem parseJPath_one {n : String} (h : plainKey n = true) :
    parseJPath ("$." ++ n) = some [Seg.key n] := by
  unfold parseJPath
  rw [string_data_dollar_dot]
  show parseChunks (splitDots n.data) = some [Seg.key n]
  rw [splitDots_no_dot (plainKey_no_dot h)]
  simp [parseChunks, parseSegChunk_plain h]

theorem parseJPath_two {n₁ n₂ : String} (h₁ : plainKey n₁ = true)
    (h₂ : plainKey n₂ = true) :
    parseJPath ("$." ++ n₁ ++ "." ++ n₂) = some [Seg.key n₁, Seg.key n₂] := by
  unfold parseJPath
  rw [string_data_dollar_dot_two]
  show parseChunks (splitDots (n₁.data ++ '.' :: n₂.data)) = some [Seg.key n₁, Seg.key n₂]
  rw [splitDots_prefix_no_dot (plainKey_no_dot h₁) n₂.data,
      splitDots_no_dot (plainKey_no_dot h₂)]
  simp [parseChunks, parseSegChunk_plain h₁, parseSegChunk_plain h₂]

theorem lastDotSegment_one {n : String} (h : plainKey n = true) :
    lastDotSegment ("$." ++ n) = n := by
  unfold lastDotSegment
  rw [string_data_dollar_dot]
  simp only [splitDots, if_neg (by decide : ¬ ('$' = '.')), if_pos rfl]
  rw [splitDots_no_dot (plainKey_no_dot h)]
  rfl

theorem lastDotSegment_two {n₁ n₂ : String} (h₁ : plainKey n₁ = true)
    (h₂ : plainKey n₂ = true) :
    lastDotSegment ("$." ++ n₁ ++ "." ++ n₂) = n₂ := by
  unfold lastDotSegment
  rw [string_data_dollar_dot_two]
  simp only [splitDots, if_neg (by decide : ¬ ('$' = '.')), if_pos rfl]
  rw [splitDots_prefix_no_dot (plainKey_no_dot h₁) n₂.data,
      splitDots_no_dot (plainKey_no_dot h₂)]
  simp

/-! ### C3: array element removal -/

theorem objSetKey_map_id {fs : List (String × JsVal)} {k : String} {v : JsVal}
    (h : ∀ kv ∈ fs, kv.1 ≠ k) :
    fs.map (fun kv => if kv.1 = k then (kv.1, v) else kv) = fs := by
  induction fs with
  | nil => rfl
  | cons kv rest ih =>
    have h1 : kv.1 ≠ k := h kv (List.mem_cons_self kv rest)
    simp only [List.map_cons, if_neg h1]
    rw [ih (fun kv' hm => h kv' (List.mem_cons_of_mem kv hm))]

/-- Re-setting a present key to its current value leaves a
distinct-key object unchanged. -/
theorem objSetKey_self {fs : List (String × JsVal)} {k : String} {v : JsVal}
    (hnd : (fs.map Prod.fst).Nodup) (h : objLookup fs k = some v) :
    objSetKey fs k v = fs := by
  induction fs with
  | nil => simp [objLookup] at h
  | cons kv rest ih =>
    by_cases hk : kv.1 = k
    · have hv : kv.2 = v := by
        unfold objLookup at h
        rw [List.find?_cons_of_pos _ (by simp [hk])] at h
        simpa using h
      have hrest : ∀ kv' ∈ rest, kv'.1 ≠ k := by
        intro kv' hm he
        simp only [List.map_cons, List.nodup_cons] at hnd
        exact hnd.1 (hk ▸ he ▸ List.mem_map_of_mem Prod.fst hm)
      unfold objSetKey
      rw [if_pos (by unfold objLookup at h; cases hf : List.find? (fun kv => kv.1 = k) (kv :: rest) <;> simp [hf] at h ⊢)]
      simp only [List.map_cons, if_pos hk]
      rw [objSetKey_map_id hrest, ← hv]
    · unfold objLookup at h
      rw [List.find?_cons_of_neg _ (by simp [hk])] at h
      simp only [List.map_cons, List.nodup_cons] at hnd
      have := ih hnd.2 h
      unfold objSetKey at this ⊢
      by_cases hs : (List.find? (fun kv => kv.1 = k) rest).isSome
      · rw [if_pos (by rw [List.find?_cons_of_neg _ (by simp [hk])]; exact hs)]
        rw [if_pos hs] at this
        simp only [List.map_cons, if_neg hk]
        rw [this]
      · rw [if_neg (by rw [List.find?_cons_of_neg _ (by simp [hk])]; exact hs)]
        rw [if_neg hs] at this
        rw [List.cons_append, this]

/-- A removal request reaches `current[fieldName].splice(index, 1)` on the
addressed top-level array. -/
theorem arrayRemove_reaches_splice
    (fs : List (String × JsVal)) (name : String) (l : List JsVal) (i : Int)
    (hclean : jsonRoundTrip (JsVal.vObj fs) = JsVal.vObj fs)
    (hname : plainKey name = true)
    (hlook : objLookup fs name = some (JsVal.vArr l)) :
    arrayRemoveUpdatedEntity (JsVal.vObj fs) ("$." ++ name) i =
      .ok (JsVal.vObj (objSetKey fs name (JsVal.vArr (spliceOne l i)))) := by
  have hpar : getParentOfTargetPath (JsVal.vObj fs) ("$." ++ name) = .nodeAt [] := by
    unfold getParentOfTargetPath
    rw [parseJPath_one hname]
    simp [getNodeSegs, hlook]
  simp only [arrayRemoveUpdatedEntity, hclean, hpar, lastDotSegment_one hname]
  simp [getNodeSegs, spliceProp, hlook, modifyAtSegs]

/-- C3 (amended): removal at an in-range index `i` produces an entity whose
array has length `n-1` with all other elements kept in order; removal at an
index `≥ n` is a silent no-op — the entity is returned unchanged and no
error is raised (`splice` clamps the start; the source never bounds-checks). -/
theorem arrayRemove_in_range_and_out_of_range
    (fs : List (String × JsVal)) (name : String) (l : List JsVal) (i : Int)
    (hclean : jsonRoundTrip (JsVal.vObj fs) = JsVal.vObj fs)
    (hnd : (fs.map Prod.fst).Nodup)
    (hname : plainKey name = true)
    (hlook : objLookup fs name = some (JsVal.vArr l)) :
    (0 ≤ i → i.toNat < l.length →
      arrayRemoveUpdatedEntity (JsVal.vObj fs) ("$." ++ name) i =
        .ok (JsVal.vObj (objSetKey fs name
          (JsVal.vArr (l.take i.toNat ++ l.drop (i.toNat + 1))))) ∧
      (l.take i.toNat ++ l.drop (i.toNat + 1)).length = l.length - 1) ∧
    ((l.length : Int) ≤ i →
      arrayRemoveUpdatedEntity (JsVal.vObj fs) ("$." ++ name) i =
        .ok (JsVal.vObj fs)) := by
  constructor
  · intro hge hlt
    have hsp : spliceOne l i = l.take i.toNat ++ l.drop (i.toNat + 1) := by
      unfold spliceOne spliceStart
      rw [if_neg (by omega)]
      rw [min_eq_left (Nat.le_of_lt hlt)]
    refine ⟨?_, ?_⟩
    · rw [arrayRemove_reaches_splice fs name l i hclean hname hlook, hsp]
    · rw [List.length_append, List.length_take, List.length_drop]
      omega
  · intro hge
    have htn : l.length ≤ i.toNat := by omega
    have hsp : spliceOne l i = l := by
      unfold spliceOne spliceStart
      rw [if_neg (by omega), min_eq_right htn]
      show List.take l.length l ++ List.drop (l.length + 1) l = l
      rw [List.take_length, List.drop_eq_nil_of_le (by omega), List.append_nil]
    rw [arrayRemove_reaches_splice fs name l i hclean hname hlook, hsp,
        objSetKey_self hnd hlook]

/-- Counterexample to C3 as stated: removing index 5 from a length-3 array
does NOT fail — it returns the entity unchanged (a silent success; the
calling action then reports "Item removed successfully"). -/
theorem arrayRemove_out_of_range_cex :
    arrayRemoveUpdatedEntity
      (JsVal.vObj [("items", JsVal.vArr [JsVal.vNum 1, JsVal.vNum 2, JsVal.vNum 3])])
      "$.items" 5 =
    .ok (JsVal.vObj [("items", JsVal.vArr [JsVal.vNum 1, JsVal.vNum 2, JsVal.vNum 3])]) := by
  rfl

/-- Witness for C3 (amended) on a length-3 array: index 1 keeps elements 0
and 2 in order; index 5 is a silent no-op. -/
theorem arrayRemove_in_range_and_out_of_range_witness :
    (arrayRemoveUpdatedEntity
      (JsVal.vObj [("items", JsVal.vArr [JsVal.vNum 1, JsVal.vNum 2, JsVal.vNum 3])])
      "$.items" 1 =
      .ok (JsVal.vObj [("items", JsVal.vArr [JsVal.vNum 1, JsVal.vNum 3])])) ∧
    (arrayRemoveUpdatedEntity
      (JsVal.vObj [("items", JsVal.vArr [JsVal.vNum 1, JsVal.vNum 2, JsVal.vNum 3])])
      "$.items" 5 =
      .ok (JsVal.vObj [("items", JsVal.vArr [JsVal.vNum 1, JsVal.vNum 2, JsVal.vNum 3])])) := by
  constructor
  · have := ((arrayRemove_in_range_and_out_of_range
      [("items", JsVal.vArr [JsVal.vNum 1, JsVal.vNum 2, JsVal.vNum 3])] "items"
      [JsVal.vNum 1, JsVal.vNum 2, JsVal.vNum 3] 1 rfl (by decide) (by decide)
      rfl).1 (by decide) (by decide)).1
    simpa using this
  · exact (arrayRemove_in_range_and_out_of_range
      [("items", JsVal.vArr [JsVal.vNum 1, JsVal.vNum 2, JsVal.vNum 3])] "items"
      [JsVal.vNum 1, JsVal.vNum 2, JsVal.vNum 3] 5 rfl (by decide) (by decide)
      rfl).2 (by decide)

/-! ### C8: write placement when the parent container is absent -/

theorem stripDollar_two (n₁ n₂ : String) :
    stripDollar ("$." ++ n₁ ++ "." ++ n₂).data = n₁.data ++ '.' :: n₂.data := by
  rw [string_data_dollar_dot_two]
  rfl

/-- Counterexample to C8 as stated: posting `$.a.b` against an entity copy
that has no `a` makes the JSONPath-based `setByPath` (part_004) fall back
to the ROOT — the value lands at top-level `b` and no intermediate `a`
object is created. -/
theorem setByPath_missing_parent_cex :
    setByPath (JsVal.vObj []) "$.a.b" (JsVal.vStr "X") =
      .ok (JsVal.vObj [("b", JsVal.vStr "X")]) ∧
    objLookup [("b", JsVal.vStr "X")] "a" = none := by
  exact ⟨rfl, rfl⟩

/-- C8 (amended): when the addressed parent container is absent from the
copy, the JSONPath-based `setByPath` of the current route (part_004) does
NOT create intermediates — the write falls back to the root object, setting
the final path segment as a top-level property (and does not fail); the
older reduce-based `setByPath` (page.tsx) does create the intermediate
object and writes at the nested location. -/
theorem setByPath_missing_parent_behavior
    (fs : List (String × JsVal)) (n₁ n₂ : String) (v : JsVal)
    (h₁ : plainKey n₁ = true) (h₂ : plainKey n₂ = true)
    (habs : objLookup fs n₁ = none) :
    setByPath (JsVal.vObj fs) ("$." ++ n₁ ++ "." ++ n₂) v =
      .ok (JsVal.vObj (objSetKey fs n₂ v)) ∧
    setByPathReduce (JsVal.vObj fs) ("$." ++ n₁ ++ "." ++ n₂) v =
      JsVal.vObj (objSetKey fs n₁ (JsVal.vObj [(n₂, v)])) := by
  constructor
  · have hpar : getParentOfTargetPath (JsVal.vObj fs) ("$." ++ n₁ ++ "." ++ n₂) =
        .rootFallback := by
      unfold getParentOfTargetPath
      rw [parseJPath_two h₁ h₂]
      simp [getNodeSegs, habs]
    simp only [setByPath, hpar, lastDotSegment_two h₁ h₂]
    rfl
  · unfold setByPathReduce
    rw [stripDollar_two]
    rw [splitDots_prefix_no_dot (plainKey_no_dot h₁) n₂.data,
        splitDots_no_dot (plainKey_no_dot h₂)]
    show reduceGo (JsVal.vObj fs) [n₁] n₂ v = _
    simp only [reduceGo, habs]
    rfl

/-- Witness for C8 (amended) at the empty entity: both variants evaluated
at `$.a.b`. -/
theorem setByPath_missing_parent_behavior_witness :
    (setByPath (JsVal.vObj []) "$.a.b" (JsVal.vStr "X") =
      .ok (JsVal.vObj [("b", JsVal.vStr "X")])) ∧
    (setByPathReduce (JsVal.vObj []) "$.a.b" (JsVal.vStr "X") =
      JsVal.vObj [("a", JsVal.vObj [("b", JsVal.vStr "X")])]) := by
  have h := setByPath_missing_parent_behavior [] "a" "b" (JsVal.vStr "X")
    (by decide) (by decide) rfl
  exact ⟨h.1, h.2⟩

/-! ### C6: default synthesis for appended array elements -/

/-- Counterexample to C6 as stated: the item schema's `name` property is a
string with `minLength: 1`, yet `arrayAddAction` appends `{name: ""}` — an
EMPTY placeholder, not a non-empty one. -/
theorem arrayAdd_minLength_cex :
    arrayAddUpdatedEntity
      (Schema.mk (some "object")
        (some [("team", Schema.mk (some "array") none
          (some (Schema.mk (some "object")
            (some [("name", Schema.mk (some "string") none none none (some 1))])
            none none none))
          none none)])
        none none none)
      (JsVal.vObj [("team", JsVal.vArr [])]) "$.team" =
    .ok (JsVal.vObj [("team", JsVal.vArr [JsVal.vObj [("name", JsVal.vStr "")]])]) := by
  rfl

/-- C6 (amended): `arrayAddAction` synthesises the default item by a plain
type switch; every string-typed property defaults to the EMPTY string,
regardless of any minimum-length (or other) constraint, so the appended
item carries `""` for such properties. -/
theorem arrayAdd_string_default_empty
    (it : Schema) (props : List (String × Schema)) (k : String) (s : Schema)
    (hitype : it.type? = some "object") (hp : it.properties? = some props)
    (hmem : (k, s) ∈ props) (hstr : s.type? = some "string") :
    defaultForProp s = .vStr "" ∧
    buildDefaultItem (some it) =
      .vObj (props.map (fun kv => (kv.1, defaultForProp kv.2))) ∧
    (k, JsVal.vStr "") ∈ props.map (fun kv => (kv.1, defaultForProp kv.2)) := by
  have hd : defaultForProp s = .vStr "" := by
    unfold defaultForProp
    rw [if_pos hstr]
  refine ⟨hd, ?_, ?_⟩
  · unfold buildDefaultItem
    show (if it.type? = some "object" then
        match it.properties? with
        | some props => JsVal.vObj (props.map fun kv => (kv.1, defaultForProp kv.2))
        | none => JsVal.vStr ""
      else JsVal.vStr "") = _
    rw [if_pos hitype, hp]
  · have := List.mem_map_of_mem (fun kv : String × Schema => (kv.1, defaultForProp kv.2)) hmem
    simpa [hd] using this

/-- Witness for C6 (amended) at the `minLength: 1` item schema. -/
theorem arrayAdd_string_default_empty_witness :
    defaultForProp (Schema.mk (some "string") none none none (some 1)) = .vStr "" ∧
    buildDefaultItem (some (Schema.mk (some "object")
      (some [("name", Schema.mk (some "string") none none none (some 1))])
      none none none)) = .vObj [("name", JsVal.vStr "")] := by
  have h := arrayAdd_string_default_empty
    (Schema.mk (some "object")
      (some [("name", Schema.mk (some "string") none none none (some 1))])
      none none none)
    [("name", Schema.mk (some "string") none none none (some 1))]
    "name" (Schema.mk (some "string") none none none (some 1))
    rfl rfl (List.mem_singleton.mpr rfl) rfl
  refine ⟨h.1, ?_⟩
  rw [h.2.1]
  rfl

theorem loopGo_fellS (parts : List String) : loopGo .fellS parts = .fellS := by
  induction parts with
  | nil => rfl
  | cons p ps ih => simpa [loopGo, List.foldl_cons, loopStep] using ih

theorem loopGo_crashS (parts : List String) : loopGo .crashS parts = .crashS := by
  induction parts with
  | nil => rfl
  | cons p ps ih => simpa [loopGo, List.foldl_cons, loopStep] using ih

theorem gftLoop_eq_loopGo :
    ∀ (parts : List String) (cur : Option Schema),
      gftLoop cur parts = finishSt (loopGo (.run cur) parts) := by
  intro parts
  induction parts with
  | nil => intro cur; cases cur <;> rfl
  | cons part rest ih =>
    intro cur
    match cur with
    | none =>
      show GftOut.crash = finishSt (loopGo (loopStep (.run none) part) rest)
      rw [show loopStep (.run none) part = .crashS from rfl, loopGo_crashS]
      rfl
    | some s =>
      show gftLoop (some s) (part :: rest) = finishSt (loopGo (loopStep (.run (some s)) part) rest)
      by_cases ho : s.type? = some "object"
      · cases hp : s.properties? with
        | none =>
          simp [gftLoop, loopStep, ho, hp, loopGo_crashS, finishSt]
        | some props =>
          simp [gftLoop, loopStep, ho, hp]
          exact ih (propLookup props part)
      · by_cases ha : s.type? = some "array"
        · cases hi : s.items? with
          | none =>
            simp [gftLoop, loopStep, ho, ha, hi, loopGo_crashS, finishSt]
          | some it =>
            by_cases hio : it.type? = some "object"
            · cases hp : it.properties? with
              | none =>
                simp [gftLoop, loopStep, ho, ha, hi, hio, hp, loopGo_crashS, finishSt]
              | some props =>
                simp [gftLoop, loopStep, ho, ha, hi, hio, hp]
                exact ih (propLookup props part)
            · simp [gftLoop, loopStep, ho, ha, hi, hio, loopGo_fellS, finishSt]
        · simp [gftLoop, loopStep, ho, ha, loopGo_fellS, finishSt]

theorem loopStep_fell {st : LoopSt} {part : String}
    (h : loopStep st part = .fellS) :
    st = .fellS ∨ ∃ s, st = .run (some s) ∧ stopsNode s := by
  match st with
  | .fellS => exact Or.inl rfl
  | .crashS => cases h
  | .run none => cases h
  | .run (some s) =>
    refine Or.inr ⟨s, rfl, ?_⟩
    by_cases ho : s.type? = some "object"
    · cases hp : s.properties? with
      | none => simp [loopStep, ho, hp] at h
      | some props => simp [loopStep, ho, hp] at h
    · by_cases ha : s.type? = some "array"
      · cases hi : s.items? with
        | none => simp [loopStep, ho, ha, hi] at h
        | some it =>
          by_cases hio : it.type? = some "object"
          · cases hp : it.properties? with
            | none => simp [loopStep, ho, ha, hi, hio, hp] at h
            | some props => simp [loopStep, ho, ha, hi, hio, hp] at h
          · exact ⟨ho, fun _ => ⟨it, hi, hio⟩⟩
      · exact ⟨ho, fun hc => absurd hc ha⟩

theorem loopGo_fell_origin :
    ∀ (parts : List String) (st : LoopSt), loopGo st parts = .fellS →
      st = .fellS ∨
      ∃ (pre : List String) (part : String) (rest : List String) (s : Schema),
        parts = pre ++ part :: rest ∧ loopGo st pre = .run (some s) ∧ stopsNode s := by
  intro parts
  induction parts with
  | nil => intro st h; exact Or.inl h
  | cons p ps ih =>
    intro st h
    have h' : loopGo (loopStep st p) ps = .fellS := h
    rcases ih (loopStep st p) h' with hf | ⟨pre, part, rest, s, hparts, hgo, hstops⟩
    · rcases loopStep_fell hf with hst | ⟨s, hst, hstops⟩
      · exact Or.inl hst
      · exact Or.inr ⟨[], p, ps, s, rfl, hst, hstops⟩
    · exact Or.inr ⟨p :: pre, part, rest, s, by rw [hparts]; rfl, hgo, hstops⟩

/-! ### C10: typeless leaves resolve as strings; `null` only at
non-traversable nodes -/

/-- C10: (a) when the traversal reaches a leaf node that declares no
`type`, `getFieldType` reports kind `string` together with the node's
enum list; (b) `getFieldType` returns its `null` result only when the loop
met, with a path segment still pending, a node through whose properties or
object items it cannot proceed (any other failure is a thrown `TypeError`,
not `null`). -/
theorem getFieldType_string_fallback_and_null
    (schema : Schema) (path : String) :
    (∀ s : Schema,
      loopGo (.run (some schema)) (gftParts path) = .run (some s) →
      s.type? = none →
      getFieldType schema path = .found "string" s.enum?) ∧
    (getFieldType schema path = .notFound →
      ∃ (pre : List String) (part : String) (rest : List String) (s : Schema),
        gftParts path = pre ++ part :: rest ∧
        loopGo (.run (some schema)) pre = .run (some s) ∧
        stopsNode s) := by
  constructor
  · intro s hgo htype
    unfold getFieldType
    rw [gftLoop_eq_loopGo, hgo]
    show GftOut.found (s.type?.getD "string") s.enum? = _
    rw [htype]
    rfl
  · intro h
    unfold getFieldType at h
    rw [gftLoop_eq_loopGo] at h
    have hfell : loopGo (.run (some schema)) (gftParts path) = .fellS := by
      match hg : loopGo (.run (some schema)) (gftParts path) with
      | .run none => rw [hg] at h; cases h
      | .run (some s) => rw [hg] at h; cases h
      | .fellS => rfl
      | .crashS => rw [hg] at h; cases h
    rcases loopGo_fell_origin _ _ hfell with hst | hex
    · cases hst
    · exact hex

/-- Witness for C10: a typeless enum leaf resolves as `string` with its
enum; `$.x.y` over a numeric `x` returns `null` from the non-traversable
branch. -/
theorem getFieldType_string_fallback_and_null_witness :
    (getFieldType
      (Schema.mk (some "object")
        (some [("e", Schema.mk none none none (some [JsVal.vStr "a"]) none)])
        none none none)
      "$.e" = .found "string" (some [JsVal.vStr "a"])) ∧
    (∃ (pre : List String) (part : String) (rest : List String) (s : Schema),
      gftParts "$.x.y" = pre ++ part :: rest ∧
      loopGo (.run (some (Schema.mk (some "object")
        (some [("x", Schema.mk (some "number") none none none none)])
        none none none))) pre = .run (some s) ∧
      stopsNode s) := by
  constructor
  · exact (getFieldType_string_fallback_and_null
      (Schema.mk (some "object")
        (some [("e", Schema.mk none none none (some [JsVal.vStr "a"]) none)])
        none none none) "$.e").1
      (Schema.mk none none none (some [JsVal.vStr "a"]) none) rfl rfl
  · exact (getFieldType_string_fallback_and_null
      (Schema.mk (some "object")
        (some [("x", Schema.mk (some "number") none none none none)])
        none none none) "$.x.y").2 rfl

/-! ### C2: allow-list / walker compatibility

The spec promises: every path the allow-list deriver emits resolves against
the full schema, whenever the update schema's shape is a sub-tree of the
full schema's shape.  `isSubSchema` is the spec-side formalisation of the
sub-tree relation; `TailOf` characterises the path tails `extractFieldPaths`
emits below a node. -/

/-! Equation lemmas for `extractFieldPaths` (its dependent matches block
direct `simp` unfolding). -/

theorem extractFieldPaths_obj_none {schema : Schema} {pre : String}
    (h1 : schema.type? = some "object") (h2 : schema.properties? = none) :
    extractFieldPaths schema pre = some [] := by
  unfold extractFieldPaths
  rw [if_pos h1]
  split
  · rfl
  · rename_i props hp
    rw [h2] at hp
    cases hp

theorem extractFieldPaths_obj_some {schema : Schema} {pre : String}
    {props : List (String × Schema)}
    (h1 : schema.type? = some "object") (h2 : schema.properties? = some props) :
    extractFieldPaths schema pre = extractFromProps props pre := by
  unfold extractFieldPaths
  rw [if_pos h1]
  split
  · rename_i hp
    rw [h2] at hp
    cases hp
  · rename_i props' hp
    rw [h2] at hp
    cases hp
    rfl

theorem extractFieldPaths_arr_none {schema : Schema} {pre : String}
    (h1 : ¬ schema.type? = some "object") (h2 : schema.type? = some "array")
    (h3 : schema.items? = none) :
    extractFieldPaths schema pre = some [] := by
  unfold extractFieldPaths
  rw [if_neg h1, if_pos h2]
  split
  · rfl
  · rename_i i hi
    rw [h3] at hi
    cases hi

theorem extractFieldPaths_arr_rec {schema i : Schema} {pre : String}
    (h1 : ¬ schema.type? = some "object") (h2 : schema.type? = some "array")
    (h3 : schema.items? = some i)
    (h4 : i.type? = some "object" ∨ i.type? = some "array") :
    extractFieldPaths schema pre = extractFieldPaths i (pre ++ "[]") := by
  conv_lhs => unfold extractFieldPaths
  rw [if_neg h1, if_pos h2]
  split
  · rename_i hi
    rw [h3] at hi
    cases hi
  · rename_i i' hi
    rw [h3] at hi
    cases hi
    rw [if_pos h4]

theorem extractFieldPaths_arr_prim {schema i : Schema} {pre : String}
    (h1 : ¬ schema.type? = some "object") (h2 : schema.type? = some "array")
    (h3 : schema.items? = some i)
    (h4 : ¬ (i.type? = some "object" ∨ i.type? = some "array")) :
    extractFieldPaths schema pre = some [pre ++ "[]"] := by
  unfold extractFieldPaths
  rw [if_neg h1, if_pos h2]
  split
  · rename_i hi
    rw [h3] at hi
    cases hi
  · rename_i i' hi
    rw [h3] at hi
    cases hi
    rw [if_neg h4]

theorem extractFieldPaths_other {schema : Schema} {pre : String}
    (h1 : ¬ schema.type? = some "object") (h2 : ¬ schema.type? = some "array") :
    extractFieldPaths schema pre = some [] := by
  unfold extractFieldPaths
  rw [if_neg h1, if_neg h2]

theorem extractFromProps_nil {pre : String} :
    extractFromProps [] pre = some [] := by
  unfold extractFromProps
  rfl

theorem extractFromProps_cons_obj {key : String} {propSchema : Schema}
    {rest : List (String × Schema)} {pre : String}
    (ho : propSchema.type? = some "object") :
    extractFromProps ((key, propSchema) :: rest) pre =
      (extractFieldPaths propSchema (pre ++ "." ++ key)).bind fun here =>
        (extractFromProps rest pre).bind fun there => some (here ++ there) := by
  conv_lhs => unfold extractFromProps
  rw [if_pos ho]
  rfl

theorem extractFromProps_cons_arr_none {key : String} {propSchema : Schema}
    {rest : List (String × Schema)} {pre : String}
    (ho : ¬ propSchema.type? = some "object")
    (ha : propSchema.type? = some "array")
    (hi : propSchema.items? = none) :
    extractFromProps ((key, propSchema) :: rest) pre = none := by
  conv_lhs => unfold extractFromProps
  rw [if_neg ho, if_pos ha]
  split
  · rfl
  · rename_i i hi'
    rw [hi] at hi'
    cases hi'

theorem extractFromProps_cons_arr_rec {key : String} {propSchema i : Schema}
    {rest : List (String × Schema)} {pre : String}
    (ho : ¬ propSchema.type? = some "object")
    (ha : propSchema.type? = some "array")
    (hi : propSchema.items? = some i)
    (hoa : i.type? = some "object" ∨ i.type? = some "array") :
    extractFromProps ((key, propSchema) :: rest) pre =
      ((extractFieldPaths i (pre ++ "." ++ key ++ "[]")).map
        ((pre ++ "." ++ key) :: ·)).bind fun here =>
        (extractFromProps rest pre).bind fun there => some (here ++ there) := by
  conv_lhs => unfold extractFromProps
  rw [if_neg ho, if_pos ha]
  split
  · rename_i hi'
    rw [hi] at hi'
    cases hi'
  · rename_i i' hi'
    rw [hi] at hi'
    cases hi'
    rw [if_pos hoa]
    rfl

theorem extractFromProps_cons_arr_prim {key : String} {propSchema i : Schema}
    {rest : List (String × Schema)} {pre : String}
    (ho : ¬ propSchema.type? = some "object")
    (ha : propSchema.type? = some "array")
    (hi : propSchema.items? = some i)
    (hoa : ¬ (i.type? = some "object" ∨ i.type? = some "array")) :
    extractFromProps ((key, propSchema) :: rest) pre =
      (extractFromProps rest pre).bind fun there =>
        some ([pre ++ "." ++ key, pre ++ "." ++ key ++ "[]"] ++ there) := by
  conv_lhs => unfold extractFromProps
  rw [if_neg ho, if_pos ha]
  split
  · rename_i hi'
    rw [hi] at hi'
    cases hi'
  · rename_i i' hi'
    rw [hi] at hi'
    cases hi'
    rw [if_neg hoa]
    rfl

theorem extractFromProps_cons_other {key : String} {propSchema : Schema}
    {rest : List (String × Schema)} {pre : String}
    (ho : ¬ propSchema.type? = some "object")
    (ha : ¬ propSchema.type? = some "array") :
    extractFromProps ((key, propSchema) :: rest) pre =
      (extractFromProps rest pre).bind fun there =>
        some ([pre ++ "." ++ key] ++ there) := by
  conv_lhs => unfold extractFromProps
  rw [if_neg ho, if_neg ha]
  rfl

/-- Every path `extractFieldPaths` emits decomposes as the prefix plus a
tail of shape `TailOf`. -/
theorem extract_tails_mutual :
    (∀ (schema : Schema) (pre : String), ∀ ps,
      extractFieldPaths schema pre = some ps →
      ∀ p ∈ ps, ∃ t, p = pre ++ t ∧ TailOf schema t) ∧
    (∀ (props : List (String × Schema)) (pre : String), ∀ ps,
      extractFromProps props pre = some ps →
      ∀ p ∈ ps, ∃ t, p = pre ++ t ∧
        ∀ (u : Schema) (pu : List (String × Schema)),
          u.type? = some "object" → u.properties? = some pu → props ⊆ pu →
          TailOf u t) := by
  refine extractFieldPaths.mutual_induct
    (fun schema pre => ∀ ps, extractFieldPaths schema pre = some ps →
      ∀ p ∈ ps, ∃ t, p = pre ++ t ∧ TailOf schema t)
    (fun props pre => ∀ ps, extractFromProps props pre = some ps →
      ∀ p ∈ ps, ∃ t, p = pre ++ t ∧
        ∀ (u : Schema) (pu : List (String × Schema)),
          u.type? = some "object" → u.properties? = some pu → props ⊆ pu →
          TailOf u t)
    ?_ ?_ ?_ ?_ ?_ ?_ ?_ ?_
  · -- object with undefined properties: no paths
    intro schema pre h1 h2 ps hext p hp
    rw [extractFieldPaths_obj_none h1 h2] at hext
    cases hext
    cases hp
  · -- object with properties: delegate to the loop
    intro schema pre h1 props h2 ih ps hext p hp
    rw [extractFieldPaths_obj_some h1 h2] at hext
    obtain ⟨t, hpt, hu⟩ := ih ps hext p hp
    exact ⟨t, hpt, hu schema props h1 h2 (fun x hx => hx)⟩
  · -- array with undefined items: no paths
    intro schema pre h1 h2 h3 ps hext p hp
    rw [extractFieldPaths_arr_none h1 h2 h3] at hext
    cases hext
    cases hp
  · -- array whose item is object/array: recurse under the [] suffix
    intro schema pre h1 h2 propSchema h3 fieldPath h4 ih ps hext p hp
    rw [extractFieldPaths_arr_rec h1 h2 h3 h4] at hext
    obtain ⟨t', hpt, htail⟩ := ih ps hext p hp
    refine ⟨"[]" ++ t', ?_, TailOf.arrTopRec h1 h2 h3 h4 htail⟩
    rw [hpt, String.append_assoc]
  · -- array with primitive items: the []-suffixed path is the leaf
    intro schema pre h1 h2 propSchema h3 h4 ps hext p hp
    rw [extractFieldPaths_arr_prim h1 h2 h3 h4] at hext
    cases hext
    rw [List.mem_singleton] at hp
    exact ⟨"[]", by rw [hp], TailOf.arrTopPrim h1 h2 h3 h4⟩
  · -- neither object nor array: no paths
    intro schema pre h1 h2 ps hext p hp
    rw [extractFieldPaths_other h1 h2] at hext
    cases hext
    cases hp
  · -- empty property list
    intro pre ps hext p hp
    rw [extractFromProps_nil] at hext
    cases hext
    cases hp
  · -- property cons
    intro pre key propSchema rest ihObj ihItem ihRest ps hext p hp
    have hsubRest : ∀ (pu : List (String × Schema)),
        ((key, propSchema) :: rest) ⊆ pu → rest ⊆ pu :=
      fun pu hs x hx => hs (List.mem_cons_of_mem _ hx)
    have hmemKey : ∀ (pu : List (String × Schema)),
        ((key, propSchema) :: rest) ⊆ pu → (key, propSchema) ∈ pu :=
      fun pu hs => hs (List.mem_cons_self _ _)
    by_cases ho : propSchema.type? = some "object"
    · rw [extractFromProps_cons_obj ho] at hext
      match hh : extractFieldPaths propSchema (pre ++ "." ++ key) with
      | none => rw [hh] at hext; cases hext
      | some here =>
        rw [hh, Option.some_bind] at hext
        match ht : extractFromProps rest pre with
        | none => rw [ht] at hext; cases hext
        | some there =>
          rw [ht, Option.some_bind] at hext
          cases hext
          rcases List.mem_append.mp hp with hphere | hpthere
          · obtain ⟨t', hpt, htail⟩ := ihObj here hh p hphere
            refine ⟨"." ++ key ++ t', ?_, fun u pu hut hup hs =>
              TailOf.objStep hut hup (hmemKey pu hs) ho htail⟩
            rw [hpt]
            simp [String.append_assoc]
          · obtain ⟨t, hpt, hu⟩ := ihRest there ht p hpthere
            exact ⟨t, hpt, fun u pu hut hup hs => hu u pu hut hup (hsubRest pu hs)⟩
    · by_cases ha : propSchema.type? = some "array"
      · match hi : propSchema.items? with
        | none =>
          rw [extractFromProps_cons_arr_none ho ha hi] at hext
          cases hext
        | some itemSchema =>
          by_cases hoa : itemSchema.type? = some "object" ∨ itemSchema.type? = some "array"
          · rw [extractFromProps_cons_arr_rec ho ha hi hoa] at hext
            match hie : extractFieldPaths itemSchema (pre ++ "." ++ key ++ "[]") with
            | none => rw [hie] at hext; simp at hext
            | some inner =>
              rw [hie] at hext
              match ht : extractFromProps rest pre with
              | none => rw [ht] at hext; simp at hext
              | some there =>
                rw [ht] at hext
                simp only [Option.map_some', Option.some_bind, Option.some.injEq,
                  List.cons_append] at hext
                subst hext
                rw [List.mem_cons] at hp
                rcases hp with hpf | hp2
                · refine ⟨"." ++ key, ?_, fun u pu hut hup hs =>
                    TailOf.arrSelf hut hup (hmemKey pu hs) ha hi⟩
                  rw [hpf]
                  simp [String.append_assoc]
                · rcases List.mem_append.mp hp2 with hpi | hpthere
                  · obtain ⟨t', hpt, htail⟩ := ihItem itemSchema hi inner hie p hpi
                    refine ⟨"." ++ key ++ "[]" ++ t', ?_, fun u pu hut hup hs =>
                      TailOf.arrItemRec hut hup (hmemKey pu hs) ha hi hoa htail⟩
                    rw [hpt]
                    simp [String.append_assoc]
                  · obtain ⟨t, hpt, hu⟩ := ihRest there ht p hpthere
                    exact ⟨t, hpt, fun u pu hut hup hs =>
                      hu u pu hut hup (hsubRest pu hs)⟩
          · rw [extractFromProps_cons_arr_prim ho ha hi hoa] at hext
            push_neg at hoa
            match ht : extractFromProps rest pre with
            | none => rw [ht] at hext; cases hext
            | some there =>
              rw [ht, Option.some_bind] at hext
              cases hext
              rcases List.mem_append.mp hp with hp2 | hpthere
              · rw [List.mem_cons, List.mem_singleton] at hp2
                rcases hp2 with hpf | hpf
                · refine ⟨"." ++ key, ?_, fun u pu hut hup hs =>
                    TailOf.arrSelf hut hup (hmemKey pu hs) ha hi⟩
                  rw [hpf]
                  simp [String.append_assoc]
                · refine ⟨"." ++ key ++ "[]", ?_, fun u pu hut hup hs =>
                    TailOf.arrItemPrim hut hup (hmemKey pu hs) ha hi hoa.1 hoa.2⟩
                  rw [hpf]
                  simp [String.append_assoc]
              · obtain ⟨t, hpt, hu⟩ := ihRest there ht p hpthere
                exact ⟨t, hpt, fun u pu hut hup hs => hu u pu hut hup (hsubRest pu hs)⟩
      · rw [extractFromProps_cons_other ho ha] at hext
        match ht : extractFromProps rest pre with
        | none => rw [ht] at hext; cases hext
        | some there =>
          rw [ht, Option.some_bind] at hext
          cases hext
          rcases List.mem_append.mp hp with hp2 | hpthere
          · rw [List.mem_singleton] at hp2
            refine ⟨"." ++ key, ?_, fun u pu hut hup hs =>
              TailOf.primLeaf hut hup (hmemKey pu hs) ho ha⟩
            rw [hp2]
            simp [String.append_assoc]
          · obtain ⟨t, hpt, hu⟩ := ihRest there ht p hpthere
            exact ⟨t, hpt, fun u pu hut hup hs => hu u pu hut hup (hsubRest pu hs)⟩

/-! Facts extracted from `isSubSchema` and `plainKeysSchema`. -/

theorem isSubSchema_type {u f : Schema} (h : isSubSchema u f = true) :
    u.type? = f.type? := by
  cases u with
  | mk t1 p1 i1 e1 m1 =>
    cases f with
    | mk t2 p2 i2 e2 m2 =>
      unfold isSubSchema at h
      simp only [Bool.and_eq_true] at h
      exact eq_of_beq h.1.1

theorem isSubSchema_props {u f : Schema} {pu : List (String × Schema)}
    (h : isSubSchema u f = true) (hpu : u.properties? = some pu) :
    ∃ pf, f.properties? = some pf ∧ isSubProps pu pf = true := by
  cases u with
  | mk t1 p1 i1 e1 m1 =>
    cases f with
    | mk t2 p2 i2 e2 m2 =>
      simp only [Schema.properties?] at hpu
      subst hpu
      unfold isSubSchema at h
      simp only [Bool.and_eq_true] at h
      have h2 := h.1.2
      match p2 with
      | none => cases h2
      | some pf => exact ⟨pf, rfl, h2⟩

theorem isSubSchema_items {u f iu : Schema} (h : isSubSchema u f = true)
    (hiu : u.items? = some iu) :
    ∃ fi, f.items? = some fi ∧ isSubSchema iu fi = true := by
  cases u with
  | mk t1 p1 i1 e1 m1 =>
    cases f with
    | mk t2 p2 i2 e2 m2 =>
      simp only [Schema.items?] at hiu
      subst hiu
      unfold isSubSchema at h
      simp only [Bool.and_eq_true] at h
      have h2 := h.2
      match i2 with
      | none => cases h2
      | some fi => exact ⟨fi, rfl, h2⟩

theorem isSubProps_mem {pu pf : List (String × Schema)}
    (h : isSubProps pu pf = true) {k : String} {c : Schema} (hm : (k, c) ∈ pu) :
    ∃ fc, propLookup pf k = some fc ∧ isSubSchema c fc = true := by
  induction pu with
  | nil => cases hm
  | cons kv rest ih =>
    obtain ⟨k', c'⟩ := kv
    unfold isSubProps at h
    simp only [Bool.and_eq_true] at h
    rcases List.mem_cons.mp hm with heq | hmr
    · cases heq
      have h1 := h.1
      split at h1
      · rename_i fc hfc
        exact ⟨fc, hfc, h1⟩
      · cases h1
    · exact ih h.2 hmr

theorem plainKeys_props {u : Schema} {pu : List (String × Schema)}
    (h : plainKeysSchema u = true) (hpu : u.properties? = some pu) :
    plainKeysProps pu = true := by
  cases u with
  | mk t1 p1 i1 e1 m1 =>
    simp only [Schema.properties?] at hpu
    subst hpu
    unfold plainKeysSchema at h
    simp only [Bool.and_eq_true] at h
    exact h.1

theorem plainKeys_items {u iu : Schema} (h : plainKeysSchema u = true)
    (hiu : u.items? = some iu) : plainKeysSchema iu = true := by
  cases u with
  | mk t1 p1 i1 e1 m1 =>
    simp only [Schema.items?] at hiu
    subst hiu
    unfold plainKeysSchema at h
    simp only [Bool.and_eq_true] at h
    exact h.2

theorem plainKeysProps_mem {pu : List (String × Schema)}
    (h : plainKeysProps pu = true) {k : String} {c : Schema} (hm : (k, c) ∈ pu) :
    plainKey k = true ∧ plainKeysSchema c = true := by
  induction pu with
  | nil => cases hm
  | cons kv rest ih =>
    obtain ⟨k', c'⟩ := kv
    unfold plainKeysProps at h
    simp only [Bool.and_eq_true] at h
    rcases List.mem_cons.mp hm with heq | hmr
    · cases heq
      exact ⟨h.1.1, h.1.2⟩
    · exact ih h.2 hmr

/-! Shape facts about emitted tails. -/

theorem tailOf_obj_head {u : Schema} {t : String} (h : TailOf u t)
    (hu : u.type? = some "object") : ∃ r, t.data = '.' :: r := by
  cases h with
  | @objStep u pu k c t' h1 h2 h3 h4 h5 =>
    exact ⟨k.data ++ t'.data, by simp [String.data_append]⟩
  | @primLeaf u pu k c h1 h2 h3 h4 h5 =>
    exact ⟨k.data, by simp [String.data_append]⟩
  | @arrSelf u pu k c i h1 h2 h3 h4 h5 =>
    exact ⟨k.data, by simp [String.data_append]⟩
  | @arrItemPrim u pu k c i h1 h2 h3 h4 h5 h6 h7 =>
    exact ⟨k.data ++ "[]".data, by simp [String.data_append]⟩
  | @arrItemRec u pu k c i t' h1 h2 h3 h4 h5 h6 h7 =>
    exact ⟨k.data ++ "[]".data ++ t'.data, by simp [String.data_append]⟩
  | arrTopPrim h1 h2 h3 h4 => exact absurd hu h1
  | arrTopRec h1 h2 h3 h4 h5 => exact absurd hu h1

theorem tailOf_arr_bracket {u : Schema} {t : String} (h : TailOf u t)
    (hu : u.type? = some "array") : 1 ≤ t.data.count '[' := by
  cases h with
  | objStep h1 h2 h3 h4 h5 => rw [h1] at hu; simp at hu
  | primLeaf h1 h2 h3 h4 h5 => rw [h1] at hu; simp at hu
  | arrSelf h1 h2 h3 h4 h5 => rw [h1] at hu; simp at hu
  | arrItemPrim h1 h2 h3 h4 h5 h6 h7 => rw [h1] at hu; simp at hu
  | arrItemRec h1 h2 h3 h4 h5 h6 h7 => rw [h1] at hu; simp at hu
  | arrTopPrim h1 h2 h3 h4 => decide
  | arrTopRec h1 h2 h3 h4 h5 =>
    rw [String.data_append]
    rw [List.count_append]
    have : List.count '[' "[]".data = 1 := by decide
    omega

theorem plainKey_count_bracket {k : String} (h : plainKey k = true) :
    k.data.count '[' = 0 := by
  rw [List.count_eq_zero]
  intro hmem
  have := plainKey_no_bracket h
  simp only [List.all_eq_true, decide_eq_true_eq] at this
  exact this '[' hmem rfl

/-! `replFirstIdx` on bracket-free prefixes and on the `[]` marker. -/

theorem replFirst_count_zero {repl : List Char} :
    ∀ {l : List Char}, l.count '[' = 0 → replFirstIdx repl l = l := by
  intro l h
  induction l with
  | nil => rfl
  | cons c cs ih =>
    rw [List.count_cons] at h
    have hc : ¬ c = '[' := by
      intro he
      simp [he] at h
    simp only [replFirstIdx, if_neg hc]
    rw [ih (by omega)]

theorem replFirst_append_zero {repl : List Char} {x : List Char}
    (hx : x.count '[' = 0) (y : List Char) :
    replFirstIdx repl (x ++ y) = x ++ replFirstIdx repl y := by
  induction x with
  | nil => rfl
  | cons c cs ih =>
    rw [List.count_cons] at hx
    have hc : ¬ c = '[' := by
      intro he
      simp [he] at hx
    simp only [List.cons_append, replFirstIdx, if_neg hc, List.append_eq]
    rw [ih (by omega)]

theorem replFirst_marker (y : List Char) :
    replFirstIdx [] ('[' :: ']' :: y) = y := by
  simp [replFirstIdx, idxClose, List.dropWhile, Char.isDigit]

theorem splitDots_ne_nil (l : List Char) : splitDots l ≠ [] := by
  induction l with
  | nil => simp [splitDots]
  | cons c cs ih =>
    by_cases hc : c = '.'
    · simp [splitDots, hc]
    · simp only [splitDots, if_neg hc]
      match h : splitDots cs with
      | [] => exact absurd h ih
      | s :: ss => simp

/-! Decomposition of `tailParts` along the tail shapes. -/

theorem tailParts_leaf {k : String} (hk : plainKey k = true) :
    tailParts ("." ++ k) = [k] := by
  unfold tailParts
  have hd : ("." ++ k).data = '.' :: k.data := by
    rw [String.data_append]; rfl
  rw [hd]
  show (splitDots (replFirstIdx [] k.data)).map String.mk = [k]
  rw [replFirst_count_zero (plainKey_count_bracket hk),
      splitDots_no_dot (plainKey_no_dot hk)]
  rfl

theorem tailParts_leaf_marker {k : String} (hk : plainKey k = true) :
    tailParts ("." ++ k ++ "[]") = [k] := by
  unfold tailParts
  have hd : ("." ++ k ++ "[]").data = '.' :: (k.data ++ ['[', ']']) := by
    rw [String.data_append, String.data_append]
    simp
  rw [hd]
  show (splitDots (replFirstIdx [] (k.data ++ ['[', ']']))).map String.mk = [k]
  rw [replFirst_append_zero (plainKey_count_bracket hk)]
  rw [show replFirstIdx ([] : List Char) ['[', ']'] = [] from rfl]
  rw [List.append_nil, splitDots_no_dot (plainKey_no_dot hk)]
  rfl

theorem tailParts_cons {k : String} (hk : plainKey k = true) {t' : String}
    {r' : List Char} (ht' : t'.data = '.' :: r') :
    tailParts ("." ++ k ++ t') = k :: tailParts t' := by
  unfold tailParts
  have hd : ("." ++ k ++ t').data = '.' :: (k.data ++ t'.data) := by
    rw [String.data_append, String.data_append]
    simp
  rw [hd]
  show (splitDots (replFirstIdx [] (k.data ++ t'.data))).map String.mk = _
  rw [replFirst_append_zero (plainKey_count_bracket hk), ht']
  rw [show replFirstIdx ([] : List Char) ('.' :: r') = '.' :: replFirstIdx [] r' from by
    simp [replFirstIdx]]
  rw [splitDots_prefix_no_dot (plainKey_no_dot hk)]
  rfl

theorem tailParts_marker_cons {k : String} (hk : plainKey k = true) {t' : String}
    {r' : List Char} (ht' : t'.data = '.' :: r') (hz : t'.data.count '[' = 0) :
    tailParts ("." ++ k ++ "[]" ++ t') = k :: tailParts t' := by
  unfold tailParts
  have hd : ("." ++ k ++ "[]" ++ t').data = '.' :: (k.data ++ '[' :: ']' :: t'.data) := by
    rw [String.data_append, String.data_append, String.data_append]
    simp
  rw [hd]
  show (splitDots (replFirstIdx [] (k.data ++ '[' :: ']' :: t'.data))).map String.mk = _
  rw [replFirst_append_zero (plainKey_count_bracket hk), replFirst_marker, ht']
  rw [splitDots_prefix_no_dot (plainKey_no_dot hk)]
  have hzr : r'.count '[' = 0 := by
    rw [ht'] at hz
    simpa using hz
  show List.map String.mk (k.data :: splitDots r') =
    k :: List.map String.mk (splitDots (replFirstIdx [] r'))
  rw [replFirst_count_zero hzr]
  rfl

/-! Loop steps over the full schema, driven by sub-schema facts. -/

theorem loopGo_cons (st : LoopSt) (k : String) (rest : List String) :
    loopGo st (k :: rest) = loopGo (loopStep st k) rest := rfl

theorem loopStep_obj {f : Schema} {pf : List (String × Schema)} (k : String)
    (hf : f.type? = some "object") (hpf : f.properties? = some pf) :
    loopStep (.run (some f)) k = .run (propLookup pf k) := by
  simp [loopStep, hf, hpf]

theorem loopStep_arr_as_item {fc fi : Schema} (k : String)
    (hfc : fc.type? = some "array") (hfi : fc.items? = some fi)
    (hfio : fi.type? = some "object") :
    loopStep (.run (some fc)) k = loopStep (.run (some fi)) k := by
  have hne : ¬ fc.type? = some "object" := by
    rw [hfc]; simp
  cases hp : fi.properties? with
  | none => simp [loopStep, hne, hfc, hfi, hfio, hp]
  | some props => simp [loopStep, hne, hfc, hfi, hfio, hp]

/-- Core resolution lemma: a tail emitted below an object node `u`, carrying
at most one array marker, drives the `getFieldType` loop from any
super-schema `f` of `u` to a schema node (no `null`, no crash). -/
theorem tailOf_resolves {u : Schema} {t : String} (htail : TailOf u t) :
    ∀ f : Schema, u.type? = some "object" → isSubSchema u f = true →
      plainKeysSchema u = true → t.data.count '[' ≤ 1 →
      ∃ s, loopGo (.run (some f)) (tailParts t) = .run (some s) := by
  induction htail with
  | @objStep u pu k c t' h1 h2 h3 h4 h5 ih =>
    intro f huo hsub hkeys hcount
    obtain ⟨pf, hpf, hsp⟩ := isSubSchema_props hsub h2
    obtain ⟨fc, hlook, hsubc⟩ := isSubProps_mem hsp h3
    obtain ⟨hk, hkc⟩ := plainKeysProps_mem (plainKeys_props hkeys h2) h3
    obtain ⟨r', hr'⟩ := tailOf_obj_head h5 h4
    have hfo : f.type? = some "object" := by
      rw [← isSubSchema_type hsub]; exact huo
    have hcount' : t'.data.count '[' ≤ 1 := by
      have hd : ("." ++ k ++ t').data = '.' :: (k.data ++ t'.data) := by
        rw [String.data_append, String.data_append]; simp
      rw [hd] at hcount
      rw [List.count_cons, List.count_append, plainKey_count_bracket hk] at hcount
      simpa using hcount
    rw [tailParts_cons hk hr', loopGo_cons, loopStep_obj k hfo hpf, hlook]
    exact ih fc h4 hsubc hkc hcount'
  | @primLeaf u pu k c h1 h2 h3 h4 h5 =>
    intro f huo hsub hkeys hcount
    obtain ⟨pf, hpf, hsp⟩ := isSubSchema_props hsub h2
    obtain ⟨fc, hlook, _⟩ := isSubProps_mem hsp h3
    obtain ⟨hk, _⟩ := plainKeysProps_mem (plainKeys_props hkeys h2) h3
    have hfo : f.type? = some "object" := by
      rw [← isSubSchema_type hsub]; exact huo
    rw [tailParts_leaf hk, loopGo_cons, loopStep_obj k hfo hpf, hlook]
    exact ⟨fc, rfl⟩
  | @arrSelf u pu k c i h1 h2 h3 h4 h5 =>
    intro f huo hsub hkeys hcount
    obtain ⟨pf, hpf, hsp⟩ := isSubSchema_props hsub h2
    obtain ⟨fc, hlook, _⟩ := isSubProps_mem hsp h3
    obtain ⟨hk, _⟩ := plainKeysProps_mem (plainKeys_props hkeys h2) h3
    have hfo : f.type? = some "object" := by
      rw [← isSubSchema_type hsub]; exact huo
    rw [tailParts_leaf hk, loopGo_cons, loopStep_obj k hfo hpf, hlook]
    exact ⟨fc, rfl⟩
  | @arrItemPrim u pu k c i h1 h2 h3 h4 h5 h6 h7 =>
    intro f huo hsub hkeys hcount
    obtain ⟨pf, hpf, hsp⟩ := isSubSchema_props hsub h2
    obtain ⟨fc, hlook, _⟩ := isSubProps_mem hsp h3
    obtain ⟨hk, _⟩ := plainKeysProps_mem (plainKeys_props hkeys h2) h3
    have hfo : f.type? = some "object" := by
      rw [← isSubSchema_type hsub]; exact huo
    rw [tailParts_leaf_marker hk, loopGo_cons, loopStep_obj k hfo hpf, hlook]
    exact ⟨fc, rfl⟩
  | @arrItemRec u pu k c i t' h1 h2 h3 h4 h5 h6 h7 ih =>
    intro f huo hsub hkeys hcount
    obtain ⟨pf, hpf, hsp⟩ := isSubSchema_props hsub h2
    obtain ⟨fc, hlook, hsubc⟩ := isSubProps_mem hsp h3
    obtain ⟨hk, hkc⟩ := plainKeysProps_mem (plainKeys_props hkeys h2) h3
    have hfo : f.type? = some "object" := by
      rw [← isSubSchema_type hsub]; exact huo
    have hd : ("." ++ k ++ "[]" ++ t').data =
        '.' :: (k.data ++ '[' :: ']' :: t'.data) := by
      rw [String.data_append, String.data_append, String.data_append]
      simp
    rcases h6 with hio | hia
    case inr =>
      exfalso
      have hbr := tailOf_arr_bracket h7 hia
      rw [hd] at hcount
      rw [List.count_cons, List.count_append, plainKey_count_bracket hk] at hcount
      simp [List.count_cons] at hcount
      omega
    case inl =>
      have hz : t'.data.count '[' = 0 := by
        rw [hd] at hcount
        rw [List.count_cons, List.count_append, plainKey_count_bracket hk] at hcount
        simp [List.count_cons] at hcount
        omega
      obtain ⟨r', hr'⟩ := tailOf_obj_head h7 hio
      obtain ⟨fi, hfi, hsubi⟩ := isSubSchema_items hsubc h5
      have hfca : fc.type? = some "array" := by
        rw [← isSubSchema_type hsubc]; exact h4
      have hfio : fi.type? = some "object" := by
        rw [← isSubSchema_type hsubi]; exact hio
      rw [tailParts_marker_cons hk hr' hz, loopGo_cons, loopStep_obj k hfo hpf, hlook]
      have hki : plainKeysSchema i = true := plainKeys_items hkc h5
      obtain ⟨s, hs⟩ := ih fi hio hsubi hki (by omega)
      match hnp : tailParts t' with
      | [] =>
        exact absurd (List.map_eq_nil_iff.mp hnp) (splitDots_ne_nil _)
      | k₁ :: restParts =>
        rw [hnp] at hs
        rw [loopGo_cons, loopStep_arr_as_item k₁ hfca hfi hfio, ← loopGo_cons]
        exact ⟨s, hs⟩
  | arrTopPrim h1 h2 h3 h4 =>
    intro f huo _ _ _
    exact absurd huo h1
  | arrTopRec h1 h2 h3 h4 h5 _ =>
    intro f huo _ _ _
    exact absurd huo h1

/-- C2 (amended): for an object-rooted update schema with plain property
names whose shape is a sub-tree of the full schema, every derived path
carrying AT MOST ONE array marker resolves against the full schema to a
schema node.  (Paths with two or more markers — nested arrays — do NOT
resolve; see the counterexample.) -/
theorem deriveAllowFields_resolvable
    (U F : Schema) (ps : List String) (p : String)
    (hUo : U.type? = some "object")
    (hsub : isSubSchema U F = true)
    (hkeys : plainKeysSchema U = true)
    (hext : extractFieldPaths U "$" = some ps)
    (hmem : p ∈ ps)
    (hbr : p.data.count '[' ≤ 1) :
    ∃ t e, getFieldType F p = .found t e := by
  obtain ⟨t, hpt, htail⟩ := extract_tails_mutual.1 U "$" ps hext p hmem
  subst hpt
  obtain ⟨r, hr⟩ := tailOf_obj_head htail hUo
  have hparts : gftParts ("$" ++ t) = tailParts t := by
    unfold gftParts tailParts
    have hd : ("$" ++ t).data = '$' :: t.data := by
      rw [String.data_append]; rfl
    rw [hd, hr]
    rfl
  have hcount : t.data.count '[' ≤ 1 := by
    have hca : ("$" ++ t).data.count '[' = t.data.count '[' := by
      rw [String.data_append]
      simp
    omega
  obtain ⟨s, hs⟩ := tailOf_resolves htail F hUo hsub hkeys hcount
  unfold getFieldType
  rw [gftLoop_eq_loopGo, hparts, hs]
  exact ⟨_, _, rfl⟩

set_option maxRecDepth 4096 in
/-- Counterexample to C2 as stated: for the schema
`{a: array of array of string}` (a sub-tree of itself), the deriver emits
`$.a[][]`, and `getFieldType` THROWS on it (the walker strips only the
first `[]` and then looks up the property name `a[]`), so resolution does
not return a schema node. -/
theorem deriveAllowFields_nested_array_cex :
    isSubSchema nestedArraySchema nestedArraySchema = true ∧
    extractFieldPaths nestedArraySchema "$" = some ["$.a", "$.a[][]"] ∧
    getFieldType nestedArraySchema "$.a[][]" = .crash := by
  refine ⟨?_, ?_, rfl⟩
  · decide
  · have h1 : extractFieldPaths nestedArraySchema "$" =
        extractFromProps [("a", Schema.mk (some "array") none
          (some (Schema.mk (some "array") none
            (some (Schema.mk (some "string") none none none none)) none none))
          none none)] "$" :=
      extractFieldPaths_obj_some rfl rfl
    have h2 : extractFromProps [("a", Schema.mk (some "array") none
          (some (Schema.mk (some "array") none
            (some (Schema.mk (some "string") none none none none)) none none))
          none none)] "$" =
        ((extractFieldPaths (Schema.mk (some "array") none
            (some (Schema.mk (some "string") none none none none)) none none)
          ("$" ++ "." ++ "a" ++ "[]")).map
          (("$" ++ "." ++ "a") :: ·)).bind fun here =>
          (extractFromProps [] "$").bind fun there => some (here ++ there) :=
      extractFromProps_cons_arr_rec (by decide) rfl rfl (Or.inr rfl)
    have h3 : extractFieldPaths (Schema.mk (some "array") none
          (some (Schema.mk (some "string") none none none none)) none none)
        ("$" ++ "." ++ "a" ++ "[]") = some [("$" ++ "." ++ "a" ++ "[]") ++ "[]"] :=
      extractFieldPaths_arr_prim (by decide) rfl rfl (by decide)
    rw [h1, h2, h3, extractFromProps_nil]
    rfl

set_option maxRecDepth 4096 in
/-- Witness for C2 (amended): update schema `{name}` against full schema
`{name, email}`; the derived path `$.name` resolves. -/
theorem deriveAllowFields_resolvable_witness :
    ∃ t e, getFieldType fullNameEmailSchema "$.name" = .found t e := by
  refine deriveAllowFields_resolvable updNameSchema fullNameEmailSchema
    ["$.name"] "$.name" rfl ?_ ?_ ?_ (by decide) (by decide)
  · decide
  · decide
  · have h1 : extractFieldPaths updNameSchema "$" =
        extractFromProps [("name", Schema.mk (some "string") none none none none)] "$" :=
      extractFieldPaths_obj_some rfl rfl
    have h2 : extractFromProps
          [("name", Schema.mk (some "string") none none none none)] "$" =
        (extractFromProps [] "$").bind fun there =>
          some (["$" ++ "." ++ "name"] ++ there) :=
      extractFromProps_cons_other (by decide) (by decide)
    rw [h1, h2, extractFromProps_nil]
    rfl

/-! ### C9: schema normalization (modelled from the spec)

The repository contains no normalization operation: `getFieldType` (the
cited walker) performs no `$ref`, `anyOf`/`oneOf` or `allOf` resolution.
The definitions below are therefore modelled from the spec. -/

/-- A successful `normalize` result carries no remaining indirection. -/
theorem normalize_resolved {fuel : Nat} {root node m : SNode}
    (h : normalize fuel root node = .ok m) :
    m.refPath = none ∧ m.anyOfB = none ∧ m.oneOfB = none ∧
    (m.allOfB = none ∨ m.allOfB = some []) := by
  induction fuel generalizing node with
  | zero => cases h
  | succ fuel ih =>
    unfold normalize at h
    split at h
    · split at h
      · exact ih h
      · cases h
    · rename_i hr
      split at h
      · split at h
        · exact ih h
        · cases h
      · rename_i ha
        split at h
        · split at h
          · exact ih h
          · cases h
        · rename_i ho
          split at h
          · exact ih h
          · rename_i hcatch
            cases h
            refine ⟨hr, ha, ho, ?_⟩
            match hl : m.allOfB with
            | none => exact Or.inl rfl
            | some [] => exact Or.inr rfl
            | some (x :: xs) => exact absurd hl (by exact hcatch x xs)

/-- C9: normalization is idempotent — whenever `normalize` succeeds, its
result is a fixed point: normalizing the result again (with any non-zero
fuel) returns it unchanged.  (Spec-modelled; see `normalize`.) -/
theorem normalize_idempotent {fuel : Nat} {root node m : SNode}
    (h : normalize fuel root node = .ok m) (fuel₂ : Nat) :
    normalize (fuel₂ + 1) root m = .ok m := by
  obtain ⟨hr, ha, ho, hl⟩ := normalize_resolved h
  unfold normalize
  rw [hr, ha, ho]
  rcases hl with hl | hl
  · rw [hl]
  · rw [hl]

/-- Witness for C9 at a concrete schema: a `$ref` to an `anyOf` whose
first non-null branch is a concrete string node; normalizing the result
again returns it unchanged. -/
theorem normalize_idempotent_witness :
    normalize 4
      (SNode.mk none none none none none
        [("defs", SNode.mk none none none none none
          [("s", SNode.mk none none
            (some [SNode.mk (some "null") none none none none [],
                   SNode.mk (some "string") none none none none []])
            none none [])])])
      (SNode.mk none (some ["defs", "s"]) none none none []) =
      .ok (SNode.mk (some "string") none none none none []) ∧
    normalize 1
      (SNode.mk none none none none none
        [("defs", SNode.mk none none none none none
          [("s", SNode.mk none none
            (some [SNode.mk (some "null") none none none none [],
                   SNode.mk (some "string") none none none none []])
            none none [])])])
      (SNode.mk (some "string") none none none none []) =
      .ok (SNode.mk (some "string") none none none none []) := by
  constructor
  · rfl
  · exact normalize_idempotent (m := SNode.mk (some "string") none none none none [])
      (by rfl : normalize 4
        (SNode.mk none none none none none
          [("defs", SNode.mk none none none none none
            [("s", SNode.mk none none
              (some [SNode.mk (some "null") none none none none [],
                     SNode.mk (some "string") none none none none []])
              none none [])])])
        (SNode.mk none (some ["defs", "s"]) none none none []) = _) 0

/-! ### C5: the update pipeline never mutates its entity argument -/

theorem evolves_refl (b : Nat) (s : Store) : evolves b s s :=
  ⟨le_refl _, fun _ => ⟨fun _ _ => rfl, fun h => h⟩⟩

theorem evolves_trans {b : Nat} {s s' s'' : Store}
    (h1 : evolves b s s') (h2 : evolves b s' s'') : evolves b s s'' := by
  refine ⟨le_trans h1.1 h2.1, fun hb => ?_⟩
  have hb' : b ≤ s'.length := le_trans hb h1.1
  exact ⟨fun i hi => ((h2.2 hb').1 i hi).trans ((h1.2 hb).1 i hi),
    fun hc => (h2.2 hb').2 ((h1.2 hb).2 hc)⟩

theorem evolves_append {b : Nat} {s : Store} {t : List HNode}
    (h : tailRefsGe s.length t) : evolves b s (s ++ t) := by
  refine ⟨by simp, fun hb => ⟨fun i hi => List.get?_append (lt_of_lt_of_le hi hb), ?_⟩⟩
  intro hc a node ha hget r hr
  by_cases hlt : a < s.length
  · rw [List.get?_append hlt] at hget
    exact hc a node ha hget r hr
  · rw [List.get?_append_right (le_of_not_lt hlt)] at hget
    exact le_trans hb (h node (List.get?_mem hget) r hr)

theorem evolves_set {b : Nat} {s : Store} {a : Nat} {node : HNode}
    (ha : b ≤ a) (hrefs : ∀ r ∈ nodeRefs node, b ≤ r) :
    evolves b s (s.set a node) := by
  refine ⟨by simp, fun hb => ⟨fun i hi => ?_, ?_⟩⟩
  · exact List.get?_set_ne node s (Nat.ne_of_gt (lt_of_lt_of_le hi ha))
  · intro hc j nd hj hget r hr
    rw [List.get?_set] at hget
    split at hget
    · rcases Option.map_eq_some'.mp hget with ⟨x, _, hnd⟩
      have hnode : node = nd := hnd
      exact hrefs r (hnode ▸ hr)
    · exact hc j nd hj hget r hr

theorem allocH_spec :
    (∀ (s : Store) (v : JsVal),
      ∃ t, (allocH s v).1 = s ++ t ∧ s.length ≤ (allocH s v).2 ∧
        tailRefsGe s.length t) ∧
    (∀ (s : Store) (es : List JsVal),
      ∃ t, (allocHElems s es).1 = s ++ t ∧ tailRefsGe s.length t ∧
        ∀ r ∈ (allocHElems s es).2, s.length ≤ r) ∧
    (∀ (s : Store) (fs : List (String × JsVal)),
      ∃ t, (allocHFields s fs).1 = s ++ t ∧ tailRefsGe s.length t ∧
        ∀ kv ∈ (allocHFields s fs).2, s.length ≤ kv.2) := by
  refine allocH.mutual_induct
    (fun s v => ∃ t, (allocH s v).1 = s ++ t ∧ s.length ≤ (allocH s v).2 ∧
      tailRefsGe s.length t)
    (fun s es => ∃ t, (allocHElems s es).1 = s ++ t ∧ tailRefsGe s.length t ∧
      ∀ r ∈ (allocHElems s es).2, s.length ≤ r)
    (fun s fs => ∃ t, (allocHFields s fs).1 = s ++ t ∧ tailRefsGe s.length t ∧
      ∀ kv ∈ (allocHFields s fs).2, s.length ≤ kv.2)
    ?_ ?_ ?_ ?_ ?_ ?_ ?_ ?_ ?_ ?_ ?_
  · intro s t
    exact ⟨[.hStr t], rfl, le_refl _,
      by intro node hn r hr; simp [allocH] at hn; subst hn; simp [nodeRefs] at hr⟩
  · intro s q
    exact ⟨[.hNum q], rfl, le_refl _,
      by intro node hn r hr; simp [allocH] at hn; subst hn; simp [nodeRefs] at hr⟩
  · intro s b
    exact ⟨[.hBool b], rfl, le_refl _,
      by intro node hn r hr; simp [allocH] at hn; subst hn; simp [nodeRefs] at hr⟩
  · intro s
    exact ⟨[.hNull], rfl, le_refl _,
      by intro node hn r hr; simp [allocH] at hn; subst hn; simp [nodeRefs] at hr⟩
  · intro s
    exact ⟨[.hUndef], rfl, le_refl _,
      by intro node hn r hr; simp [allocH] at hn; subst hn; simp [nodeRefs] at hr⟩
  · intro s fs ih
    obtain ⟨t, h1, h2, h3⟩ := ih
    refine ⟨t ++ [.hObj (allocHFields s fs).2], ?_, ?_, ?_⟩
    · show (allocHFields s fs).1 ++ [.hObj (allocHFields s fs).2]
        = s ++ (t ++ [.hObj (allocHFields s fs).2])
      rw [h1, List.append_assoc]
    · show s.length ≤ (allocHFields s fs).1.length
      rw [h1]; simp
    · intro node hn r hr
      rcases List.mem_append.mp hn with hn' | hn'
      · exact h2 node hn' r hr
      · rw [List.mem_singleton] at hn'
        subst hn'
        simp only [nodeRefs, List.mem_map] at hr
        obtain ⟨kv, hkv, hkvr⟩ := hr
        exact hkvr ▸ h3 kv hkv
  · intro s es ih
    obtain ⟨t, h1, h2, h3⟩ := ih
    refine ⟨t ++ [.hArr (allocHElems s es).2], ?_, ?_, ?_⟩
    · show (allocHElems s es).1 ++ [.hArr (allocHElems s es).2]
        = s ++ (t ++ [.hArr (allocHElems s es).2])
      rw [h1, List.append_assoc]
    · show s.length ≤ (allocHElems s es).1.length
      rw [h1]; simp
    · intro node hn r hr
      rcases List.mem_append.mp hn with hn' | hn'
      · exact h2 node hn' r hr
      · rw [List.mem_singleton] at hn'
        subst hn'
        simp only [nodeRefs] at hr
        exact h3 r hr
  · intro s
    exact ⟨[], by simp [allocHFields], by intro node hn; simp at hn,
      by intro kv hkv; simp [allocHFields] at hkv⟩
  · intro s k v rest p ih1 ih3
    obtain ⟨t1, ha1, ha2, ha3⟩ := ih1
    obtain ⟨t2, hb1, hb2, hb3⟩ := ih3
    refine ⟨t1 ++ t2, ?_, ?_, ?_⟩
    · show (allocHFields (allocH s v).1 rest).1 = s ++ (t1 ++ t2)
      rw [hb1, ha1, List.append_assoc]
    · intro node hn r hr
      rcases List.mem_append.mp hn with hn' | hn'
      · exact ha3 node hn' r hr
      · have := hb2 node hn' r hr
        have hl : s.length ≤ (allocH s v).1.length := by rw [ha1]; simp
        exact le_trans hl this
    · intro kv hkv
      have hkv2 : kv ∈ (k, (allocH s v).2) :: (allocHFields (allocH s v).1 rest).2 := hkv
      rcases List.mem_cons.mp hkv2 with rfl | hkv'
      · exact ha2
      · have := hb3 kv hkv'
        have hl : s.length ≤ (allocH s v).1.length := by rw [ha1]; simp
        exact le_trans hl this
  · intro s
    exact ⟨[], by simp [allocHElems], by intro node hn; simp at hn,
      by intro r hr; simp [allocHElems] at hr⟩
  · intro s v rest p ih1 ih2
    obtain ⟨t1, ha1, ha2, ha3⟩ := ih1
    obtain ⟨t2, hb1, hb2, hb3⟩ := ih2
    refine ⟨t1 ++ t2, ?_, ?_, ?_⟩
    · show (allocHElems (allocH s v).1 rest).1 = s ++ (t1 ++ t2)
      rw [hb1, ha1, List.append_assoc]
    · intro node hn r hr
      rcases List.mem_append.mp hn with hn' | hn'
      · exact ha3 node hn' r hr
      · have := hb2 node hn' r hr
        have hl : s.length ≤ (allocH s v).1.length := by rw [ha1]; simp
        exact le_trans hl this
    · intro r hr
      have hr2 : r ∈ (allocH s v).2 :: (allocHElems (allocH s v).1 rest).2 := hr
      rcases List.mem_cons.mp hr2 with rfl | hr'
      · exact ha2
      · have := hb3 r hr'
        have hl : s.length ≤ (allocH s v).1.length := by rw [ha1]; simp
        exact le_trans hl this

theorem allocH_extends {b : Nat} (s : Store) (v : JsVal) :
    evolves b s (allocH s v).1 := by
  obtain ⟨t, h1, _, h3⟩ := allocH_spec.1 s v
  rw [h1]
  exact evolves_append h3

theorem allocH_addr_ge (s : Store) (v : JsVal) : s.length ≤ (allocH s v).2 :=
  (allocH_spec.1 s v).choose_spec.2.1

theorem allocNulls_spec :
    ∀ (n : Nat) (s : Store),
      ∃ t, (allocNulls s n).1 = s ++ t ∧ tailRefsGe s.length t ∧
        ∀ r ∈ (allocNulls s n).2, s.length ≤ r := by
  intro n
  induction n with
  | zero =>
    intro s
    exact ⟨[], by simp [allocNulls], by intro node hn; simp at hn,
      by intro r hr; simp [allocNulls] at hr⟩
  | succ m ih =>
    intro s
    obtain ⟨t, h1, h2, h3⟩ := ih (s ++ [.hNull])
    refine ⟨.hNull :: t, ?_, ?_, ?_⟩
    · show (allocNulls (s ++ [.hNull]) m).1 = s ++ (.hNull :: t)
      rw [h1]; simp
    · intro node hn r hr
      rcases List.mem_cons.mp hn with rfl | hn'
      · simp [nodeRefs] at hr
      · have := h2 node hn' r hr
        simp at this
        omega
    · intro r hr
      have hr2 : r ∈ s.length :: (allocNulls (s ++ [.hNull]) m).2 := hr
      rcases List.mem_cons.mp hr2 with rfl | hr'
      · exact le_refl _
      · have := h3 r hr'
        simp at this
        omega

theorem getAddrSegs_ge {b : Nat} {s : Store} (hc : highClosed b s) :
    ∀ (segs : List Seg) (a p : Nat), b ≤ a → getAddrSegs s a segs = some p → b ≤ p := by
  intro segs
  induction segs with
  | nil =>
    intro a p ha h
    simp [getAddrSegs] at h
    exact h ▸ ha
  | cons seg rest ih =>
    intro a p ha h
    unfold getAddrSegs at h
    split at h
    · rename_i fs hget
      split at h
      · rename_i k
        split at h
        · rename_i kv hfind
          refine ih kv.2 p ?_ h
          refine hc a _ ha hget kv.2 ?_
          simp only [nodeRefs, List.mem_map]
          exact ⟨kv, List.mem_of_find?_eq_some hfind, rfl⟩
        · cases h
      · rename_i n
        split at h
        · rename_i kv hfind
          refine ih kv.2 p ?_ h
          refine hc a _ ha hget kv.2 ?_
          simp only [nodeRefs, List.mem_map]
          exact ⟨kv, List.mem_of_find?_eq_some hfind, rfl⟩
        · cases h
    · rename_i es hget
      split at h
      · rename_i k
        split at h
        · rename_i n hnum
          split at h
          · rename_i c hidx
            refine ih c p ?_ h
            exact hc a _ ha hget c (by simpa [nodeRefs] using List.get?_mem hidx)
          · cases h
        · cases h
      · rename_i n
        split at h
        · rename_i c hidx
          refine ih c p ?_ h
          exact hc a _ ha hget c (by simpa [nodeRefs] using List.get?_mem hidx)
        · cases h
    · cases h

theorem objSetKeyRef_refs {fs : List (String × Nat)} {k : String} {p r : Nat}
    (h : r ∈ nodeRefs (.hObj (objSetKeyRef fs k p))) :
    r ∈ nodeRefs (.hObj fs) ∨ r = p := by
  simp only [nodeRefs, objSetKeyRef] at h ⊢
  split at h
  · rw [List.map_map] at h
    rw [List.mem_map] at h
    obtain ⟨kv, hkv, hr⟩ := h
    by_cases he : kv.1 = k
    · right
      simp [Function.comp, he] at hr
      omega
    · left
      rw [List.mem_map]
      refine ⟨kv, hkv, ?_⟩
      simp [Function.comp, he] at hr
      omega
  · rw [List.map_append, List.mem_append] at h
    rcases h with h' | h'
    · exact Or.inl h'
    · simp at h'
      exact Or.inr h'

theorem setKeyAtAddr_evolves {b : Nat} {s s' : Store} {a : Nat} {k : String}
    {value : JsVal} (hb : b ≤ s.length) (hc : highClosed b s) (ha : b ≤ a)
    (h : setKeyAtAddr s a k value = .ok s') : evolves b s s' := by
  unfold setKeyAtAddr at h
  split at h
  · rename_i fs hget
    simp only [Except.ok.injEq] at h
    subst h
    refine evolves_trans (allocH_extends s value) (evolves_set ha ?_)
    intro r hr
    rcases objSetKeyRef_refs hr with hr' | hr'
    · exact hc a _ ha hget r hr'
    · exact hr' ▸ le_trans hb (allocH_addr_ge s value)
  · rename_i es hget
    split at h
    · rename_i n hnum
      split at h
      · rename_i hlt
        simp only [Except.ok.injEq] at h
        subst h
        refine evolves_trans (allocH_extends s value) (evolves_set ha ?_)
        intro r hr
        simp only [nodeRefs] at hr
        rcases List.mem_or_eq_of_mem_set hr with hr' | hr'
        · exact hc a _ ha hget r (by simpa [nodeRefs] using hr')
        · exact hr' ▸ le_trans hb (allocH_addr_ge s value)
      · rename_i hge
        simp only [Except.ok.injEq] at h
        subst h
        obtain ⟨t, h1, h2, h3⟩ := allocNulls_spec (n - es.length) (allocH s value).1
        have e1 : evolves b s (allocH s value).1 := allocH_extends s value
        have e2 : evolves b (allocH s value).1
            (allocNulls (allocH s value).1 (n - es.length)).1 := by
          rw [h1]; exact evolves_append h2
        refine evolves_trans (evolves_trans e1 e2) (evolves_set ha ?_)
        intro r hr
        simp only [nodeRefs, List.append_assoc, List.mem_append] at hr
        rcases hr with hr' | hr' | hr'
        · exact hc a _ ha hget r (by simpa [nodeRefs] using hr')
        · have := h3 r hr'
          exact le_trans hb (le_trans e1.1 this)
        · rw [List.mem_singleton] at hr'
          exact hr' ▸ le_trans hb (allocH_addr_ge s value)
    · simp only [Except.ok.injEq] at h
      subst h
      exact evolves_refl b s
  · cases h
  · cases h

theorem setByPathH_evolves {b : Nat} {s s' : Store} {root : Nat} {path : String}
    {value : JsVal} (hb : b ≤ s.length) (hc : highClosed b s) (hroot : b ≤ root)
    (h : setByPathH s root path value = .ok s') : evolves b s s' := by
  unfold setByPathH at h
  split at h
  · exact setKeyAtAddr_evolves hb hc hroot h
  · cases h
  · split at h
    · rename_i q hfull
      split at h
      · rename_i p hpar
        exact setKeyAtAddr_evolves hb hc
          (getAddrSegs_ge hc _ root p hroot hpar) h
      · cases h
    · exact setKeyAtAddr_evolves hb hc hroot h

theorem submitStepH_evolves {b : Nat} (schema : Schema) (allowFields : List String)
    (root : Nat) (acc : Store × Bool) (entry : String × FormVal)
    (hb : b ≤ acc.1.length) (hc : highClosed b acc.1) (hroot : b ≤ root) :
    evolves b acc.1 (submitStepH schema allowFields root acc entry).1 := by
  simp only [submitStepH]
  repeat' split
  all_goals try exact evolves_refl _ _
  rename_i s2 hok
  exact setByPathH_evolves hb hc hroot hok

theorem submitFold_evolves {b : Nat} (schema : Schema) (allowFields : List String)
    (root : Nat) (hroot : b ≤ root) :
    ∀ (form : List (String × FormVal)) (acc : Store × Bool),
      b ≤ acc.1.length → highClosed b acc.1 →
      evolves b acc.1 (form.foldl (submitStepH schema allowFields root) acc).1 := by
  intro form
  induction form with
  | nil => intro acc _ _; exact evolves_refl _ _
  | cons e rest ih =>
    intro acc h1 h2
    rw [List.foldl_cons]
    have hstep := submitStepH_evolves schema allowFields root acc e h1 h2 hroot
    have h1' : b ≤ (submitStepH schema allowFields root acc e).1.length :=
      le_trans h1 hstep.1
    have h2' : highClosed b (submitStepH schema allowFields root acc e).1 :=
      (hstep.2 h1).2 h2
    exact evolves_trans hstep (ih _ h1' h2')

theorem optFields_congr {f g : Nat → Option JsVal} :
    ∀ {fs : List (String × Nat)}, (∀ kv ∈ fs, f kv.2 = g kv.2) →
      optFields f fs = optFields g fs := by
  intro fs
  induction fs with
  | nil => intro _; rfl
  | cons kv rest ih =>
    intro h
    unfold optFields
    rw [h kv (List.mem_cons_self _ _), ih (fun x hx => h x (List.mem_cons_of_mem _ hx))]

theorem optElems_congr {f g : Nat → Option JsVal} :
    ∀ {es : List Nat}, (∀ r ∈ es, f r = g r) →
      optElems f es = optElems g es := by
  intro es
  induction es with
  | nil => intro _; rfl
  | cons r rest ih =>
    intro h
    unfold optElems
    rw [h r (List.mem_cons_self _ _), ih (fun x hx => h x (List.mem_cons_of_mem _ hx))]

theorem readH_agree {b : Nat} {s s' : Store}
    (hlow : ∀ node ∈ s, ∀ r ∈ nodeRefs node, r < b)
    (hag : ∀ i, i < b → s'.get? i = s.get? i) :
    ∀ (fuel a : Nat), a < b → readH fuel s' a = readH fuel s a := by
  intro fuel
  induction fuel with
  | zero => intro a _; rfl
  | succ m ih =>
    intro a ha
    show readHStep (readH m) s' a = readHStep (readH m) s a
    unfold readHStep
    rw [hag a ha]
    cases hget : s.get? a with
    | none => rfl
    | some node =>
      have hmem := List.get?_mem hget
      cases node with
      | hObj fs =>
        show (optFields (readH m s') fs).map JsVal.vObj
          = (optFields (readH m s) fs).map JsVal.vObj
        rw [optFields_congr (fun kv hkv => ih kv.2
          (hlow _ hmem kv.2 (by simp only [nodeRefs, List.mem_map]; exact ⟨kv, hkv, rfl⟩)))]
      | hArr es =>
        show (optElems (readH m s') es).map JsVal.vArr
          = (optElems (readH m s) es).map JsVal.vArr
        rw [optElems_congr (fun r hr => ih r (hlow _ hmem r (by simpa [nodeRefs] using hr)))]
      | hStr t => rfl
      | hNum q => rfl
      | hBool bb => rfl
      | hNull => rfl
      | hUndef => rfl

theorem readH_some_lt {fuel : Nat} {s : Store} {a : Nat} {v : JsVal}
    (h : readH fuel s a = some v) : a < s.length := by
  cases fuel with
  | zero => cases h
  | succ m =>
    by_cases hlt : a < s.length
    · exact hlt
    · exfalso
      have hn : s.get? a = none := List.get?_eq_none.mpr (le_of_not_lt hlt)
      have hstep : readHStep (readH m) s a = some v := h
      unfold readHStep at hstep
      rw [hn] at hstep
      cases hstep

/-- C5: the update pipeline never mutates its entity argument.  On the
explicit heap, `submitAction` first allocates a deep copy of the entity
(`JSON.parse(JSON.stringify(entity))`) and folds every posted edit into
that copy: every node of the copy lives at an address at or above the
pre-copy store length, navigation from the copy's root can only reach such
addresses, and every write (`targetObj[fieldName] = value`, including its
fresh value allocation) lands there, so for a well-formed store (every
node's references within bounds) the value read back at the entity's
address is unchanged — whether the fold succeeded or crashed partway. -/
theorem submitAction_no_entity_mutation
    (schema : Schema) (allowFields : List String) (s : Store) (entityAddr : Nat)
    (form : List (String × FormVal)) (fuel rfuel : Nat)
    (hwf : ∀ node ∈ s, ∀ r ∈ nodeRefs node, r < s.length) :
    readH rfuel (submitActionH schema allowFields s entityAddr form fuel).1 entityAddr
      = readH rfuel s entityAddr := by
  unfold submitActionH
  cases hread : readH fuel s entityAddr with
  | none => rfl
  | some v =>
    have haddr : entityAddr < s.length := readH_some_lt hread
    show readH rfuel
      (form.foldl (submitStepH schema allowFields (allocH s (jsonRoundTrip v)).2)
        ((allocH s (jsonRoundTrip v)).1, false)).1 entityAddr
        = readH rfuel s entityAddr
    have hc0 : highClosed s.length s := by
      intro a node ha hget r _
      rw [List.get?_eq_none.mpr ha] at hget
      cases hget
    have e1 : evolves s.length s (allocH s (jsonRoundTrip v)).1 :=
      allocH_extends s (jsonRoundTrip v)
    have hb1 : s.length ≤ (allocH s (jsonRoundTrip v)).1.length := e1.1
    have hc1 : highClosed s.length (allocH s (jsonRoundTrip v)).1 :=
      (e1.2 (le_refl _)).2 hc0
    have e2 := submitFold_evolves schema allowFields
      (allocH s (jsonRoundTrip v)).2 (allocH_addr_ge s (jsonRoundTrip v)) form
      ((allocH s (jsonRoundTrip v)).1, false) hb1 hc1
    have e := evolves_trans e1 e2
    exact readH_agree hwf (fun i hi => (e.2 (le_refl _)).1 i hi) rfuel entityAddr haddr

/-- A concrete run of the frame theorem: a two-node store holding the
entity `{name: "Ann"}` at address 1, one allowed posted edit that the
pipeline applies to the copy; the entity reads back unchanged. -/
theorem submitAction_no_entity_mutation_witness :
    (∀ node ∈ ([.hStr "Ann", .hObj [("name", 0)]] : Store),
      ∀ r ∈ nodeRefs node, r < ([.hStr "Ann", .hObj [("name", 0)]] : Store).length) ∧
    readH 4 (submitActionH
        (Schema.mk (some "object")
          (some [("name", Schema.mk (some "string") none none none none)])
          none none none)
        [] [.hStr "Ann", .hObj [("name", 0)]] 1
        [("$.name", FormVal.str "Bob")] 4).1 1
      = readH 4 ([.hStr "Ann", .hObj [("name", 0)]] : Store) 1 :=
  ⟨by decide, submitAction_no_entity_mutation _ _ _ _ _ _ _ (by decide)⟩

end SDMUI
